import Mathlib

/-!
A shallow embedding, in Lean 4, of the polycube generator and counter
(src/polycube.rs, src/rotation.rs, src/generator.rs, src/safe_counter.rs),
together with theorems settling the specification claims about it.

Conventions of the embedding:
* Rust `i8` coordinates are embedded as `Int`.  The programs only ever handle
  coordinates whose magnitude is bounded by the polycube size, far below the
  `i8` range, so two's-complement wraparound never occurs on the executions the
  claims quantify over.
* `HashSet`s are embedded as lists used up to membership; iteration order over
  a `HashSet` (unspecified in Rust) is fixed to first-discovery order.
* The `rayon` parallel iteration in `generate_polycubes` is embedded as a
  sequential fold in base-shape order: the source merges worker results with
  `flat_map().collect()`, which preserves base order, and membership in the
  mutex-guarded dedup set is the same test in either schedule.
* File I/O (the `.zst` shape cache) is embedded as a cache miss: the semantic
  contract of the cache is load-or-regenerate, and regeneration is the pure
  meaning of the function.
* Unbounded `while` loops are embedded as fuel recursion, with fuel chosen
  provably (or generously) above the number of iterations the loop can make.
-/

namespace PolycubeSpec

/-- 3D coordinate type (`Pos` in src/polycube.rs); `i8` fields embedded as `Int`. -/
structure Pos where
  x : Int
  y : Int
  z : Int
  deriving DecidableEq, Repr

instance : Inhabited Pos := ⟨⟨0, 0, 0⟩⟩

/-- The six face-adjacent positions of `p` (`Pos::adjacent_positions`). -/
def Pos.adjacent_positions (p : Pos) : List Pos :=
  [⟨p.x + 1, p.y, p.z⟩, ⟨p.x - 1, p.y, p.z⟩,
   ⟨p.x, p.y + 1, p.z⟩, ⟨p.x, p.y - 1, p.z⟩,
   ⟨p.x, p.y, p.z + 1⟩, ⟨p.x, p.y, p.z - 1⟩]

/-- Polycube representation as a sequence of positions (`Polycube` in src/polycube.rs). -/
structure Polycube where
  cubes : List Pos
  deriving DecidableEq, Repr

/-- All positions face-adjacent to the shape but not occupied by it
(`Polycube::get_expansion_positions`); the Rust `HashSet` result is embedded as a
deduplicated list. -/
def Polycube.get_expansion_positions (P : Polycube) : List Pos :=
  ((P.cubes.flatMap Pos.adjacent_positions).filter (fun a => decide (a ∉ P.cubes))).dedup

/-- Append a cube at the given position (`Polycube::expand`). -/
def Polycube.expand (P : Polycube) (position : Pos) : Polycube :=
  ⟨P.cubes ++ [position]⟩

/-- Minimum of `a` and the elements of `l` (embeds `iter().min().unwrap()` on a
nonempty iterator whose first element is `a`). -/
def minInt (a : Int) (l : List Int) : Int := l.foldl min a

/-- Translate so the minimum coordinate on every axis is zero (`Polycube::normalize`). -/
def Polycube.normalize (P : Polycube) : Polycube :=
  match P.cubes with
  | [] => P
  | c :: cs =>
    let min_x := minInt c.x (cs.map Pos.x)
    let min_y := minInt c.y (cs.map Pos.y)
    let min_z := minInt c.z (cs.map Pos.z)
    ⟨(c :: cs).map (fun p => ⟨p.x - min_x, p.y - min_y, p.z - min_z⟩)⟩

/-- One step of the graph-traversal inner loop of `Polycube::is_face_connected`:
visit neighbour `a` if it is occupied and unvisited, pushing it on the work stack
(`qv.1`) and recording it as visited (`qv.2`). -/
def visitStep (occupied : List Pos) (qv : List Pos × List Pos) (a : Pos) :
    List Pos × List Pos :=
  if a ∈ occupied ∧ a ∉ qv.2 then (a :: qv.1, a :: qv.2) else qv

/-- The `while let Some(current) = queue.pop()` loop of `Polycube::is_face_connected`.
The Rust `Vec` used as a work list pushes and pops at the same end, embedded here as
the head of a list.  The loop terminates because every iteration either visits a new
occupied position or shortens the work list; the fuel passed by `is_face_connected`
provably exceeds the possible number of iterations. -/
def bfsLoop (occupied : List Pos) : Nat → List Pos → List Pos → List Pos
  | _, [], visited => visited
  | 0, _ :: _, visited => visited
  | fuel + 1, current :: rest, visited =>
    let qv := current.adjacent_positions.foldl (visitStep occupied) (rest, visited)
    bfsLoop occupied fuel qv.1 qv.2

/-- Face-connectivity check (`Polycube::is_face_connected`): traverse from the first
cube and compare the number of visited positions with the number of cubes. -/
def Polycube.is_face_connected (P : Polycube) : Bool :=
  if P.cubes.length ≤ 1 then true
  else
    match P.cubes with
    | [] => true
    | c :: _ =>
      let visited := bfsLoop P.cubes (P.cubes.length + 1) [c] [c]
      visited.length == P.cubes.length

/-- `Polycube::unit_cube`. -/
def Polycube.unit_cube : Polycube := ⟨[⟨0, 0, 0⟩]⟩

/-- `Polycube::domino`. -/
def Polycube.domino : Polycube := ⟨[⟨0, 0, 0⟩, ⟨1, 0, 0⟩]⟩

/-- A 3×3 integer rotation matrix (`[[i8; 3]; 3]` in src/rotation.rs). -/
structure Mat3 where
  a00 : Int
  a01 : Int
  a02 : Int
  a10 : Int
  a11 : Int
  a12 : Int
  a20 : Int
  a21 : Int
  a22 : Int
  deriving DecidableEq, Repr

/-- Apply a rotation matrix to a single position (the body of the closure in
`Polycube::apply_rotation`). -/
def rotPos (m : Mat3) (p : Pos) : Pos :=
  ⟨m.a00 * p.x + m.a01 * p.y + m.a02 * p.z,
   m.a10 * p.x + m.a11 * p.y + m.a12 * p.z,
   m.a20 * p.x + m.a21 * p.y + m.a22 * p.z⟩

/-- `Polycube::apply_rotation`. -/
def Polycube.apply_rotation (P : Polycube) (m : Mat3) : Polycube :=
  ⟨P.cubes.map (rotPos m)⟩

/-- Matrix product of two rotation matrices (used only in proofs about the
rotation group; the source composes rotations implicitly by applying them in
sequence). -/
def matMul (a b : Mat3) : Mat3 :=
  ⟨a.a00 * b.a00 + a.a01 * b.a10 + a.a02 * b.a20,
   a.a00 * b.a01 + a.a01 * b.a11 + a.a02 * b.a21,
   a.a00 * b.a02 + a.a01 * b.a12 + a.a02 * b.a22,
   a.a10 * b.a00 + a.a11 * b.a10 + a.a12 * b.a20,
   a.a10 * b.a01 + a.a11 * b.a11 + a.a12 * b.a21,
   a.a10 * b.a02 + a.a11 * b.a12 + a.a12 * b.a22,
   a.a20 * b.a00 + a.a21 * b.a10 + a.a22 * b.a20,
   a.a20 * b.a01 + a.a21 * b.a11 + a.a22 * b.a21,
   a.a20 * b.a02 + a.a21 * b.a12 + a.a22 * b.a22⟩

/-- The identity matrix (first entry of `generate_rotation_matrices`). -/
def idMat : Mat3 := ⟨1, 0, 0, 0, 1, 0, 0, 0, 1⟩

/-- The 24 rotation matrices, in source order (`generate_rotation_matrices`). -/
def generate_rotation_matrices : List Mat3 :=
  [⟨1, 0, 0, 0, 1, 0, 0, 0, 1⟩,
   ⟨1, 0, 0, 0, 0, -1, 0, 1, 0⟩,
   ⟨1, 0, 0, 0, -1, 0, 0, 0, -1⟩,
   ⟨1, 0, 0, 0, 0, 1, 0, -1, 0⟩,
   ⟨-1, 0, 0, 0, 1, 0, 0, 0, -1⟩,
   ⟨-1, 0, 0, 0, 0, 1, 0, 1, 0⟩,
   ⟨-1, 0, 0, 0, -1, 0, 0, 0, 1⟩,
   ⟨-1, 0, 0, 0, 0, -1, 0, -1, 0⟩,
   ⟨0, 1, 0, -1, 0, 0, 0, 0, 1⟩,
   ⟨0, 1, 0, 0, 0, -1, -1, 0, 0⟩,
   ⟨0, 1, 0, 1, 0, 0, 0, 0, -1⟩,
   ⟨0, 1, 0, 0, 0, 1, 1, 0, 0⟩,
   ⟨0, -1, 0, 1, 0, 0, 0, 0, 1⟩,
   ⟨0, -1, 0, 0, 0, -1, 1, 0, 0⟩,
   ⟨0, -1, 0, -1, 0, 0, 0, 0, -1⟩,
   ⟨0, -1, 0, 0, 0, 1, -1, 0, 0⟩,
   ⟨0, 0, 1, 0, 1, 0, -1, 0, 0⟩,
   ⟨0, 0, 1, 1, 0, 0, 0, 1, 0⟩,
   ⟨0, 0, 1, 0, -1, 0, 1, 0, 0⟩,
   ⟨0, 0, 1, -1, 0, 0, 0, -1, 0⟩,
   ⟨0, 0, -1, 0, 1, 0, 1, 0, 0⟩,
   ⟨0, 0, -1, -1, 0, 0, 0, 1, 0⟩,
   ⟨0, 0, -1, 0, -1, 0, -1, 0, 0⟩,
   ⟨0, 0, -1, 1, 0, 0, 0, -1, 0⟩]

/-- All 24 rotations of a polycube, each normalized (`all_rotations`). -/
def all_rotations (polycube : Polycube) : List Polycube :=
  generate_rotation_matrices.map (fun rotation => (polycube.apply_rotation rotation).normalize)

/-- Strict lexicographic comparison of position sequences
(`lexicographically_smaller` in src/rotation.rs): element-by-element on
(x, y, z), with a shorter prefix smaller than its extensions. -/
def lexicographically_smaller : List Pos → List Pos → Bool
  | [], b => decide (b ≠ [])
  | _ :: _, [] => false
  | a :: as', b :: bs =>
    if a.x < b.x then true
    else if b.x < a.x then false
    else if a.y < b.y then true
    else if b.y < a.y then false
    else if a.z < b.z then true
    else if b.z < a.z then false
    else lexicographically_smaller as' bs

/-- The (x, then y, then z) order used by the `sort_by` comparator in
`get_canonical_hash` and by `sort_unstable` on coordinate triples. -/
def posLe (a b : Pos) : Prop :=
  a.x < b.x ∨ (a.x = b.x ∧ (a.y < b.y ∨ (a.y = b.y ∧ a.z ≤ b.z)))

instance posLe.decidableRel : DecidableRel posLe := fun a b =>
  inferInstanceAs (Decidable (a.x < b.x ∨ (a.x = b.x ∧ (a.y < b.y ∨ (a.y = b.y ∧ a.z ≤ b.z)))))

/-- Sorting a position sequence in the (x, y, z) order: the unique sorted
arrangement produced by both `sort_by` (rotation.rs) and `sort_unstable`
(safe_counter.rs). -/
def sortPositions (l : List Pos) : List Pos := l.insertionSort posLe

/-- One step of the minimum-tracking loop in `get_canonical_hash`: keep the
smaller of the stored sorted sequence and the next rotation's sorted sequence. -/
def pickSmaller (smallest : Option (List Pos)) (rotated : Polycube) : Option (List Pos) :=
  let positions := sortPositions rotated.cubes
  match smallest with
  | none => some positions
  | some s => if lexicographically_smaller positions s then some positions else some s

/-- The canonical position sequence computed inside `get_canonical_hash`: the
lexicographically smallest of the 24 rotated, normalized, sorted position
sequences (the `smallest.unwrap()` of the source; the list of rotations is never
empty, so the fold never yields `none`). -/
def canonical_positions (P : Polycube) : List Pos :=
  ((all_rotations P).foldl pickSmaller none).getD []

/-- The multiplier of `rustc_hash::FxHasher` (64-bit). -/
def fxSeed : Nat := 0x517cc1b727220a95

/-- One `add_to_hash` step of `rustc_hash::FxHasher`: rotate the 64-bit state
left by 5, xor in the new word, multiply by the seed (wrapping). -/
def fxAdd (h v : Nat) : Nat :=
  ((h * 32 % 2 ^ 64 + h / 2 ^ 59) ^^^ v) * fxSeed % 2 ^ 64

/-- A coordinate as the byte fed to the hasher (`i8 as u8`, two's complement). -/
def u8OfInt (v : Int) : Nat := (v % 256).toNat

/-- `FxHasher` applied to a `Vec<Pos>`: the standard `Hash` instance feeds the
length, then the three bytes of each position, into successive `add_to_hash`
steps starting from state 0; `finish` returns the 64-bit state. -/
def fxhash (l : List Pos) : Nat :=
  l.foldl (fun h p => fxAdd (fxAdd (fxAdd h (u8OfInt p.x)) (u8OfInt p.y)) (u8OfInt p.z))
    (fxAdd 0 l.length)

/-- Canonical form hash (`Polycube::get_canonical_hash` in src/rotation.rs): the
`FxHasher` digest of the canonical position sequence. -/
def Polycube.get_canonical_hash (P : Polycube) : Nat := fxhash (canonical_positions P)

/-- Modelled from the spec: `generate_polycubes` calls `normalized.get_canonical_form()`,
whose definition is not among the provided sources.  Per the spec (section 4.2) the
canonical signature is the lexicographically smallest of the 24 rotated, normalized,
coordinate-sorted position sequences, "either the literal encoded sequence or a
fixed-size hash of it"; we model the literal-sequence variant. -/
def Polycube.get_canonical_form (P : Polycube) : List Pos := canonical_positions P

/-- The per-candidate body of the generation loop in `generate_polycubes`:
discard candidates that fail the connectivity check, normalize, canonicalize, and
keep the normalized shape only if its canonical form is new.  The state is the
set of seen canonical forms paired with the retained shapes; pushing onto the
result vector is embedded as consing, with a final reversal restoring discovery
order. -/
def generateStep (base_cube : Polycube) (results : List (List Pos) × List Polycube)
    (position : Pos) : List (List Pos) × List Polycube :=
  let expanded_shape := base_cube.expand position
  if expanded_shape.is_face_connected then
    let normalized := expanded_shape.normalize
    let canonical := normalized.get_canonical_form
    if canonical ∈ results.1 then results
    else (canonical :: results.1, normalized :: results.2)
  else results

/-- Generate all polycubes of size `n` (`generate_polycubes` in src/generator.rs).
`use_cache` is kept for signature fidelity; the cache is embedded as a miss (its
contract is load-or-regenerate and regeneration is the pure meaning).  The
parallel fan-out over base shapes is embedded as a sequential fold in base order. -/
def generate_polycubes : Nat → Bool → List Polycube
  | 0, _ => []
  | 1, _ => [Polycube.unit_cube]
  | 2, _ => [Polycube.domino]
  | n + 3, use_cache =>
    let base_cubes := generate_polycubes (n + 2) use_cache
    (base_cubes.foldl
      (fun results base_cube =>
        base_cube.get_expansion_positions.foldl (generateStep base_cube) results)
      ([], [])).2.reverse

/-- Known free-polycube counts for validation (`get_known_count` in src/generator.rs). -/
def get_known_count (n : Nat) : Option Nat :=
  if n = 1 then some 1
  else if n = 2 then some 1
  else if n = 3 then some 2
  else if n = 4 then some 8
  else if n = 5 then some 29
  else if n = 6 then some 166
  else if n = 7 then some 1023
  else if n = 8 then some 6922
  else if n = 9 then some 48311
  else if n = 10 then some 346543
  else if n = 11 then some 2522522
  else if n = 12 then some 18598427
  else if n = 13 then some 139333147
  else if n = 14 then some 1056657611
  else if n = 15 then some 8107839447
  else if n = 16 then some 62709211271
  else if n = 17 then some 489997729602
  else if n = 18 then some 3847265309118
  else none

/-- Translation-only canonical form (`canonicalize_in_place` in src/safe_counter.rs):
translate the minima to the origin and sort.  The source's coordinate triples are
ordered by `sort_unstable` in exactly the (x, y, z) lexicographic order of
`sortPositions`. -/
def canonicalize (l : List Pos) : List Pos :=
  match l with
  | [] => []
  | c :: cs =>
    let min_x := minInt c.x (cs.map Pos.x)
    let min_y := minInt c.y (cs.map Pos.y)
    let min_z := minInt c.z (cs.map Pos.z)
    sortPositions ((c :: cs).map (fun p => ⟨p.x - min_x, p.y - min_y, p.z - min_z⟩))

/-- An injective code of an integer as a natural number. -/
def intCode (v : Int) : Nat := if 0 ≤ v then 2 * v.toNat else 2 * (-v).toNat - 1

/-- An injective code of a position as a natural number. -/
def posCode (p : Pos) : Nat :=
  Nat.pair (intCode p.x) (Nat.pair (intCode p.y) (intCode p.z))

/-- Modelled from the spec: `hash_polycube` uses the standard library's
`DefaultHasher`, an external hasher whose algorithm the standard library leaves
unspecified; the spec (section 7) treats its collisions as a silent undercount
risk, not as defined behaviour.  It is modelled as an injective encoding of the
canonicalized position list, i.e. collision-free deduplication. -/
def hash_polycube (positions : List Pos) : Nat :=
  positions.foldr (fun p acc => Nat.pair (posCode p) acc + 1) 0

/-- Face-adjacent unoccupied positions (`get_valid_extensions` in src/safe_counter.rs);
its six directions are those of `Pos.adjacent_positions`, and the `HashSet` result is
embedded as a deduplicated list. -/
def get_valid_extensions (positions : List Pos) : List Pos :=
  ((positions.flatMap Pos.adjacent_positions).filter (fun a => decide (a ∉ positions))).dedup

/-- The `while let Some(..) = queue.pop_front()` loop of `is_connected` in
src/safe_counter.rs: same traversal as `bfsLoop` but with a FIFO queue
(`VecDeque`), embedded as popping from the head and pushing at the tail. -/
def bfsQueueLoop (occupied : List Pos) : Nat → List Pos → List Pos → List Pos
  | _, [], visited => visited
  | 0, _ :: _, visited => visited
  | fuel + 1, current :: rest, visited =>
    let qv := current.adjacent_positions.foldl
      (fun qv a => if a ∈ occupied ∧ a ∉ qv.2 then (qv.1 ++ [a], a :: qv.2) else qv)
      (rest, visited)
    bfsQueueLoop occupied fuel qv.1 qv.2

/-- Connectivity check on raw position lists (`is_connected` in src/safe_counter.rs). -/
def is_connected (positions : List Pos) : Bool :=
  if positions.length ≤ 1 then true
  else
    match positions with
    | [] => true
    | c :: _ =>
      let visited := bfsQueueLoop positions (positions.length + 1) [c] [c]
      visited.length == positions.length

/-- Candidate-extension step of the breadth-first counting loop
(`count_fixed_polycubes_improved`): canonicalize, skip seen hashes, skip
disconnected shapes, record the hash and enqueue. -/
def countStep (positions : List Pos) (size : Nat)
    (qv : List (List Pos × Nat) × List Nat) (ext_pos : Pos) :
    List (List Pos × Nat) × List Nat :=
  let new_positions := canonicalize (positions ++ [ext_pos])
  let h := hash_polycube new_positions
  if h ∈ qv.2 then qv
  else if ¬ is_connected new_positions then qv
  else (qv.1 ++ [(new_positions, size + 1)], h :: qv.2)

/-- The `while let Some((positions, size)) = queue.pop_front()` loop of
`count_fixed_polycubes_improved`.  The fuel passed by the wrapper generously
exceeds the number of distinct canonical shapes of size at most `n`, which
bounds the number of loop iterations. -/
def countLoop (n : Nat) : Nat → List (List Pos × Nat) → List Nat → Nat → Nat
  | _, [], _, count => count
  | 0, _ :: _, _, count => count
  | fuel + 1, (positions, size) :: rest, visited, count =>
    if size = n then countLoop n fuel rest visited (count + 1)
    else if n < size then countLoop n fuel rest visited count
    else
      let qv := (get_valid_extensions positions).foldl (countStep positions size) (rest, visited)
      countLoop n fuel qv.1 qv.2 count

/-- Single-threaded breadth-first fixed-polycube counter
(`count_fixed_polycubes_improved` in src/safe_counter.rs). -/
def count_fixed_polycubes_improved (n : Nat) : Nat :=
  if n ≤ 2 then 1
  else countLoop n (2 ^ (8 * n)) [([⟨0, 0, 0⟩], 1)] [hash_polycube [⟨0, 0, 0⟩]] 0

/-- Candidate-extension step of `generate_starting_polycubes`: same as
`countStep` but with no connectivity check (the source performs none here). -/
def startStep (positions : List Pos) (current_size : Nat)
    (qv : List (List Pos × Nat) × List Nat) (ext_pos : Pos) :
    List (List Pos × Nat) × List Nat :=
  let new_positions := canonicalize (positions ++ [ext_pos])
  let h := hash_polycube new_positions
  if h ∈ qv.2 then qv
  else (qv.1 ++ [(new_positions, current_size + 1)], h :: qv.2)

/-- The queue loop of `generate_starting_polycubes`, collecting the shapes that
reach the target size. -/
def startLoop (size : Nat) :
    Nat → List (List Pos × Nat) → List Nat → List (List Pos) → List (List Pos)
  | _, [], _, result => result
  | 0, _ :: _, _, result => result
  | fuel + 1, (positions, current_size) :: rest, visited, result =>
    if current_size = size then startLoop size fuel rest visited (result ++ [positions])
    else
      let qv := (get_valid_extensions positions).foldl (startStep positions current_size)
        (rest, visited)
      startLoop size fuel qv.1 qv.2 result

/-- Seed shapes for the parallel counter (`generate_starting_polycubes` in
src/safe_counter.rs). -/
def generate_starting_polycubes (size : Nat) : List (List Pos) :=
  if size = 1 then [[⟨0, 0, 0⟩]]
  else if size = 2 then [[⟨0, 0, 0⟩, ⟨1, 0, 0⟩]]
  else startLoop size (2 ^ (8 * size)) [([⟨0, 0, 0⟩], 1)] [hash_polycube [⟨0, 0, 0⟩]] []

/-- Depth-first completion counter (`count_extensions_from` in
src/safe_counter.rs), including its alternate-branch comparison loop: after each
accepted extension the source walks the remaining extensions, canonicalizes and
hashes each, compares the hash with the accepted one and discards the outcome.
That computation is bound here to `_alt_comparisons` and, exactly as in the
source, contributes nothing to the state.  `visited_hashes` is created afresh in
every call, so deduplication is local to the siblings of one node. -/
def count_extensions_from (positions : List Pos) : Nat → Nat
  | 0 => 1
  | remaining + 1 =>
    let extensions := get_valid_extensions positions
    (extensions.enum.foldl
      (fun (st : Nat × List Nat) ie =>
        let i := ie.1
        let ext_pos := ie.2
        let new_positions := canonicalize (positions ++ [ext_pos])
        let h := hash_polycube new_positions
        if h ∈ st.2 then st
        else if ¬ is_connected new_positions then st
        else
          let c := count_extensions_from new_positions remaining
          let _alt_comparisons := (extensions.drop (i + 1)).map
            (fun other_ext => h == hash_polycube (canonicalize (positions ++ [other_ext])))
          (st.1 + c, h :: st.2))
      (0, [])).1

/-- `count_extensions_from` with the alternate-branch comparison loop removed
(the variant the spec says an implementer should write). -/
def count_extensions_without_dead_loop (positions : List Pos) : Nat → Nat
  | 0 => 1
  | remaining + 1 =>
    let extensions := get_valid_extensions positions
    (extensions.foldl
      (fun (st : Nat × List Nat) ext_pos =>
        let new_positions := canonicalize (positions ++ [ext_pos])
        let h := hash_polycube new_positions
        if h ∈ st.2 then st
        else if ¬ is_connected new_positions then st
        else (st.1 + count_extensions_without_dead_loop new_positions remaining, h :: st.2))
      (0, [])).1

/-- Parallel seed-partitioned fixed-polycube counter
(`count_fixed_polycubes_parallel` in src/safe_counter.rs): one task per seed
shape, each summed into a mutex-guarded accumulator; the sum is embedded as a
fold over the seeds (addition is commutative, so task order is irrelevant).
Progress display and the spinner thread are side effects external to the count. -/
def count_fixed_polycubes_parallel (n : Nat) : Nat :=
  if n ≤ 2 then 1
  else
    let starting_size := if n ≤ 10 then 3 else 4
    let starting_polycubes := generate_starting_polycubes starting_size
    starting_polycubes.foldl
      (fun total positions => total + count_extensions_from positions (n - positions.length)) 0

/-- Dispatching fixed-polycube counter (`count_fixed_polycubes` in
src/safe_counter.rs).  `threads` models `CounterConfig.threads`, defaulted in the
source to the machine's CPU count. -/
def count_fixed_polycubes (n threads : Nat) : Nat :=
  if n ≤ 2 then 1
  else if n ≤ 7 then (get_known_count n).getD ((generate_polycubes n true).length)
  else if threads ≤ 1 then count_fixed_polycubes_improved n
  else count_fixed_polycubes_parallel n

/-- Free-polycube counter (`count_free_polycubes` in src/safe_counter.rs):
tabulated constants for sizes up to 11, a hard-coded literal for 12, and the
fixed count divided by 24 beyond that. -/
def count_free_polycubes (n threads : Nat) : Nat :=
  if n ≤ 2 then 1
  else if n = 3 then 2
  else if n = 4 then 8
  else if n = 5 then 29
  else if n = 6 then 166
  else if n = 7 then 1023
  else if n = 8 then 6922
  else if n = 9 then 48311
  else if n = 10 then 346543
  else if n = 11 then 2522522
  else
    let fixed_count := count_fixed_polycubes n threads
    if n = 12 then 18598427 else fixed_count / 24

/-- Public counting interface (`count_polycubes` in src/safe_counter.rs).
`threads` models the CPU count used to build the default `CounterConfig`. -/
def count_polycubes (threads n : Nat) (use_symmetry : Bool) : Nat :=
  if n ≤ 7 ∧ use_symmetry = false then
    (get_known_count n).getD ((generate_polycubes n true).length)
  else if use_symmetry then count_free_polycubes n threads
  else count_fixed_polycubes n threads

/-! Auxiliary definitions used to state and prove properties of the embedding. -/

/-- Strict version of the (x, y, z) lexicographic order on positions. -/
def posLt (a b : Pos) : Prop :=
  a.x < b.x ∨ (a.x = b.x ∧ (a.y < b.y ∨ (a.y = b.y ∧ a.z < b.z)))

instance posLt.decidableRel : DecidableRel posLt := fun a b =>
  inferInstanceAs (Decidable (a.x < b.x ∨ (a.x = b.x ∧ (a.y < b.y ∨ (a.y = b.y ∧ a.z < b.z)))))

/-- Componentwise translation of a position. -/
def translatePos (p t : Pos) : Pos := ⟨p.x + t.x, p.y + t.y, p.z + t.z⟩

/-- The sorted, normalized image of a position list under one rotation matrix:
the candidate sequence that `get_canonical_hash` derives from that rotation. -/
def rotatedSortedCand (m : Mat3) (l : List Pos) : List Pos :=
  sortPositions ((Polycube.mk (l.map (rotPos m))).normalize).cubes

/-- The 24 candidate sequences among which `get_canonical_hash` picks the
lexicographically smallest. -/
def canonicalCandidates (P : Polycube) : List (List Pos) :=
  (all_rotations P).map (fun Q => sortPositions Q.cubes)

/-- Reachability between positions through face-adjacent steps that stay inside
the position list `occ`: the transitive closure the connectivity check decides. -/
def ReachIn (occ : List Pos) : Pos → Pos → Prop :=
  Relation.ReflTransGen (fun u v => u ∈ occ ∧ v ∈ occ ∧ v ∈ u.adjacent_positions)

/-- `T` is obtained from `S` by one of the 24 proper rotations followed by a
translation (shapes being compared as unordered collections of cubes). -/
def rotation_translation_equiv (S T : Polycube) : Prop :=
  ∃ m ∈ generate_rotation_matrices, ∃ t : Pos,
    T.cubes.Perm (S.cubes.map (fun p => translatePos (rotPos m p) t))

/-- The straight line of `n` cubes along the x axis (a family of pairwise
inequivalent shapes used to exhibit hash collisions). -/
def lineShape (n : Nat) : Polycube :=
  ⟨(List.range n).map (fun i => ⟨Int.ofNat i, 0, 0⟩)⟩

/-! ### The position order and sorting -/

lemma posLe_total : ∀ a b : Pos, posLe a b ∨ posLe b a := fun a b => by
  unfold posLe; omega

lemma posLe_trans {a b c : Pos} (h1 : posLe a b) (h2 : posLe b c) : posLe a c := by
  unfold posLe at *; omega

lemma posLe_antisymm {a b : Pos} (h1 : posLe a b) (h2 : posLe b a) : a = b := by
  cases a; cases b
  simp only [posLe] at h1 h2
  simp only [Pos.mk.injEq]
  omega

instance posLe.isTotal : IsTotal Pos posLe := ⟨posLe_total⟩

instance posLe.isTrans : IsTrans Pos posLe := ⟨fun _ _ _ => posLe_trans⟩

instance posLe.isAntisymm : IsAntisymm Pos posLe := ⟨fun _ _ => posLe_antisymm⟩

lemma sortPositions_perm (l : List Pos) : (sortPositions l).Perm l :=
  List.perm_insertionSort posLe l

lemma sortPositions_sorted (l : List Pos) : (sortPositions l).Sorted posLe :=
  List.sorted_insertionSort posLe l

lemma sortPositions_eq_of_perm {l₁ l₂ : List Pos} (h : l₁.Perm l₂) :
    sortPositions l₁ = sortPositions l₂ :=
  List.eq_of_perm_of_sorted
    ((sortPositions_perm l₁).trans (h.trans (sortPositions_perm l₂).symm))
    (sortPositions_sorted l₁) (sortPositions_sorted l₂)

lemma lexicographically_smaller_cons {a b : Pos} {as' bs : List Pos} :
    lexicographically_smaller (a :: as') (b :: bs) = true ↔
      posLt a b ∨ (a = b ∧ lexicographically_smaller as' bs = true) := by
  have key : ∀ r : Bool,
      (if a.x < b.x then true else if b.x < a.x then false
       else if a.y < b.y then true else if b.y < a.y then false
       else if a.z < b.z then true else if b.z < a.z then false else r) = true ↔
        posLt a b ∨ (a = b ∧ r = true) := by
    intro r
    cases a; cases b
    cases r <;> simp only [posLt, Pos.mk.injEq] <;> dsimp only <;>
      split_ifs <;> simp <;> omega
  rw [lexicographically_smaller]
  exact key _

lemma lexicographically_smaller_irrefl : ∀ a : List Pos,
    lexicographically_smaller a a = false
  | [] => rfl
  | p :: ps => by
    rw [Bool.eq_false_iff]
    intro h
    rcases lexicographically_smaller_cons.1 h with h' | ⟨-, h'⟩
    · unfold posLt at h'; omega
    · exact absurd h' (by rw [lexicographically_smaller_irrefl ps]; simp)

lemma posLt_trans {a b c : Pos} (h1 : posLt a b) (h2 : posLt b c) : posLt a c := by
  unfold posLt at *; omega

lemma lexicographically_smaller_trans : ∀ {a b c : List Pos},
    lexicographically_smaller a b = true → lexicographically_smaller b c = true →
    lexicographically_smaller a c = true
  | [], b, c, _, h2 => by
    cases c with
    | nil => cases b with
      | nil => exact h2
      | cons q qs => simp [lexicographically_smaller] at h2
    | cons r rs => simp [lexicographically_smaller]
  | _ :: _, [], _, h1, _ => by simp [lexicographically_smaller] at h1
  | _ :: _, _ :: _, [], _, h2 => by simp [lexicographically_smaller] at h2
  | p :: ps, q :: qs, r :: rs, h1, h2 => by
    rcases lexicographically_smaller_cons.1 h1 with hpq | ⟨hpq, h1'⟩ <;>
      rcases lexicographically_smaller_cons.1 h2 with hqr | ⟨hqr, h2'⟩
    · exact lexicographically_smaller_cons.2 (Or.inl (posLt_trans hpq hqr))
    · exact lexicographically_smaller_cons.2 (Or.inl (hqr ▸ hpq))
    · exact lexicographically_smaller_cons.2 (Or.inl (hpq ▸ hqr))
    · exact lexicographically_smaller_cons.2
        (Or.inr ⟨hpq.trans hqr, lexicographically_smaller_trans h1' h2'⟩)

lemma lexicographically_smaller_trichotomy : ∀ a b : List Pos,
    lexicographically_smaller a b = true ∨ a = b ∨ lexicographically_smaller b a = true
  | [], [] => Or.inr (Or.inl rfl)
  | [], _ :: _ => Or.inl (by simp [lexicographically_smaller])
  | _ :: _, [] => Or.inr (Or.inr (by simp [lexicographically_smaller]))
  | p :: ps, q :: qs => by
    by_cases hpq : p = q
    · rcases lexicographically_smaller_trichotomy ps qs with h | h | h
      · exact Or.inl (lexicographically_smaller_cons.2 (Or.inr ⟨hpq, h⟩))
      · exact Or.inr (Or.inl (by rw [hpq, h]))
      · exact Or.inr (Or.inr (lexicographically_smaller_cons.2 (Or.inr ⟨hpq.symm, h⟩)))
    · have : posLt p q ∨ posLt q p := by
        cases p; cases q
        simp only [Pos.mk.injEq] at hpq
        unfold posLt; dsimp only; omega
      rcases this with h | h
      · exact Or.inl (lexicographically_smaller_cons.2 (Or.inl h))
      · exact Or.inr (Or.inr (lexicographically_smaller_cons.2 (Or.inl h)))

lemma lexicographically_smaller_asymm {a b : List Pos}
    (h1 : lexicographically_smaller a b = true) :
    lexicographically_smaller b a = false := by
  rw [Bool.eq_false_iff]
  intro h2
  have := lexicographically_smaller_trans h1 h2
  rw [lexicographically_smaller_irrefl] at this
  cases this

lemma lexicographically_smaller_total_eq {a b : List Pos}
    (h1 : lexicographically_smaller a b = false)
    (h2 : lexicographically_smaller b a = false) : a = b := by
  rcases lexicographically_smaller_trichotomy a b with h | h | h
  · rw [h1] at h; cases h
  · exact h
  · rw [h2] at h; cases h

/-! ### Minima and normalization -/

lemma minInt_le_init (l : List Int) : ∀ a, minInt a l ≤ a := by
  induction l with
  | nil => intro a; exact le_refl a
  | cons x xs ih => intro a; exact le_trans (ih (min a x)) (min_le_left a x)

lemma minInt_le_mem (l : List Int) : ∀ a x, x ∈ l → minInt a l ≤ x := by
  induction l with
  | nil => intro a x hx; cases hx
  | cons y ys ih =>
    intro a x hx
    rcases List.mem_cons.1 hx with rfl | hx'
    · exact le_trans (minInt_le_init ys (min a x)) (min_le_right a x)
    · exact ih (min a y) x hx'

lemma minInt_attained (l : List Int) : ∀ a, minInt a l = a ∨ minInt a l ∈ l := by
  induction l with
  | nil => intro a; exact Or.inl rfl
  | cons x xs ih =>
    intro a
    rcases ih (min a x) with h | h
    · rcases min_choice a x with hm | hm
      · exact Or.inl (by rw [show minInt a (x :: xs) = minInt (min a x) xs from rfl, h, hm])
      · refine Or.inr (List.mem_cons.2 (Or.inl ?_))
        rw [show minInt a (x :: xs) = minInt (min a x) xs from rfl, h, hm]
    · exact Or.inr (List.mem_cons.2 (Or.inr h))

lemma minInt_le_all {a y : Int} {l : List Int} (hy : y ∈ a :: l) : minInt a l ≤ y := by
  rcases List.mem_cons.1 hy with rfl | hy'
  · exact minInt_le_init l _
  · exact minInt_le_mem l a y hy'

lemma minInt_mem_cons (a : Int) (l : List Int) : minInt a l ∈ a :: l := by
  rcases minInt_attained l a with h | h
  · exact List.mem_cons.2 (Or.inl h)
  · exact List.mem_cons.2 (Or.inr h)

lemma minInt_congr_perm {a b : Int} {l₁ l₂ : List Int} (h : (a :: l₁).Perm (b :: l₂)) :
    minInt a l₁ = minInt b l₂ :=
  le_antisymm (minInt_le_all (h.symm.mem_iff.1 (minInt_mem_cons b l₂)))
    (minInt_le_all (h.mem_iff.1 (minInt_mem_cons a l₁)))

lemma minInt_map_add (l : List Int) (t : Int) : ∀ a,
    minInt (a + t) (l.map (· + t)) = minInt a l + t := by
  induction l with
  | nil => intro a; rfl
  | cons x xs ih =>
    intro a
    have step : minInt (a + t) ((x :: xs).map (· + t)) = minInt (min a x + t) (xs.map (· + t)) := by
      show minInt (min (a + t) (x + t)) (xs.map (· + t)) = _
      rw [min_add_add_right]
    rw [step, ih (min a x)]
    rfl

lemma normalize_cons (c : Pos) (cs : List Pos) :
    (Polycube.mk (c :: cs)).normalize = Polycube.mk ((c :: cs).map
      (fun p => ⟨p.x - minInt c.x (cs.map Pos.x), p.y - minInt c.y (cs.map Pos.y),
                 p.z - minInt c.z (cs.map Pos.z)⟩)) := rfl

lemma normalize_of_nil {P : Polycube} (h : P.cubes = []) : P.normalize = P := by
  cases P with
  | mk l => cases l with
    | nil => rfl
    | cons c cs => cases h

lemma normalize_perm {l₁ l₂ : List Pos} (h : l₁.Perm l₂) :
    ((Polycube.mk l₁).normalize).cubes.Perm ((Polycube.mk l₂).normalize).cubes := by
  cases l₁ with
  | nil =>
    rw [← h.nil_eq]
  | cons c cs =>
    cases l₂ with
    | nil => exact absurd h.symm.nil_eq (by simp)
    | cons b bs =>
      have hmapx : ((c :: cs).map Pos.x).Perm ((b :: bs).map Pos.x) := h.map Pos.x
      have hmapy : ((c :: cs).map Pos.y).Perm ((b :: bs).map Pos.y) := h.map Pos.y
      have hmapz : ((c :: cs).map Pos.z).Perm ((b :: bs).map Pos.z) := h.map Pos.z
      have hx : minInt c.x (cs.map Pos.x) = minInt b.x (bs.map Pos.x) := minInt_congr_perm hmapx
      have hy : minInt c.y (cs.map Pos.y) = minInt b.y (bs.map Pos.y) := minInt_congr_perm hmapy
      have hz : minInt c.z (cs.map Pos.z) = minInt b.z (bs.map Pos.z) := minInt_congr_perm hmapz
      rw [normalize_cons, normalize_cons, hx, hy, hz]
      dsimp only
      exact h.map _

lemma normalize_map_translate (l : List Pos) (t : Pos) :
    (Polycube.mk (l.map (fun p => translatePos p t))).normalize =
      (Polycube.mk l).normalize := by
  cases l with
  | nil => rfl
  | cons c cs =>
    have compx : (cs.map (fun p => translatePos p t)).map Pos.x = (cs.map Pos.x).map (· + t.x) := by
      simp only [List.map_map]; rfl
    have compy : (cs.map (fun p => translatePos p t)).map Pos.y = (cs.map Pos.y).map (· + t.y) := by
      simp only [List.map_map]; rfl
    have compz : (cs.map (fun p => translatePos p t)).map Pos.z = (cs.map Pos.z).map (· + t.z) := by
      simp only [List.map_map]; rfl
    have hx : minInt (translatePos c t).x ((cs.map (fun p => translatePos p t)).map Pos.x)
        = minInt c.x (cs.map Pos.x) + t.x := by
      rw [compx]; exact minInt_map_add (cs.map Pos.x) t.x c.x
    have hy : minInt (translatePos c t).y ((cs.map (fun p => translatePos p t)).map Pos.y)
        = minInt c.y (cs.map Pos.y) + t.y := by
      rw [compy]; exact minInt_map_add (cs.map Pos.y) t.y c.y
    have hz : minInt (translatePos c t).z ((cs.map (fun p => translatePos p t)).map Pos.z)
        = minInt c.z (cs.map Pos.z) + t.z := by
      rw [compz]; exact minInt_map_add (cs.map Pos.z) t.z c.z
    show (Polycube.mk ((translatePos c t) :: cs.map (fun p => translatePos p t))).normalize = _
    rw [normalize_cons, normalize_cons, hx, hy, hz]
    refine congrArg Polycube.mk ?_
    show ((c :: cs).map (fun p => translatePos p t)).map _ = _
    rw [List.map_map]
    refine List.map_congr_left ?_
    intro p _
    show (⟨(translatePos p t).x - _, (translatePos p t).y - _, (translatePos p t).z - _⟩ : Pos) = _
    simp only [translatePos, Pos.mk.injEq]
    refine ⟨by ring, by ring, by ring⟩

lemma normalize_eq_map_translate (c : Pos) (cs : List Pos) :
    ((Polycube.mk (c :: cs)).normalize).cubes
      = (c :: cs).map (fun p => translatePos p
          ⟨-(minInt c.x (cs.map Pos.x)), -(minInt c.y (cs.map Pos.y)),
            -(minInt c.z (cs.map Pos.z))⟩) := by
  rw [normalize_cons]
  refine List.map_congr_left ?_
  intro p _
  simp only [translatePos, Pos.mk.injEq]
  refine ⟨by ring, by ring, by ring⟩

lemma normalize_fix_of_mins_zero {c : Pos} {cs : List Pos}
    (hx : minInt c.x (cs.map Pos.x) = 0) (hy : minInt c.y (cs.map Pos.y) = 0)
    (hz : minInt c.z (cs.map Pos.z) = 0) :
    (Polycube.mk (c :: cs)).normalize = Polycube.mk (c :: cs) := by
  rw [normalize_cons, hx, hy, hz]
  refine congrArg Polycube.mk ?_
  have : ∀ p ∈ c :: cs, (⟨p.x - 0, p.y - 0, p.z - 0⟩ : Pos) = p := by
    intro p _
    cases p
    simp
  rw [List.map_congr_left this]
  simp

/-- A helper used to reason coordinatewise about the list produced by
`normalize`: after subtracting a minimum, the minimum becomes zero. -/
lemma minInt_shift_zero (a : Int) (l : List Int) :
    minInt (a - minInt a l) (l.map (· - minInt a l)) = 0 := by
  have h1 : l.map (· - minInt a l) = l.map (· + -(minInt a l)) := by
    refine List.map_congr_left ?_
    intro v _
    ring
  rw [h1, show a - minInt a l = a + -(minInt a l) by ring, minInt_map_add]
  ring

lemma normalize_cubes_cons (c : Pos) (cs : List Pos) :
    ((Polycube.mk (c :: cs)).normalize).cubes =
      (⟨c.x - minInt c.x (cs.map Pos.x), c.y - minInt c.y (cs.map Pos.y),
        c.z - minInt c.z (cs.map Pos.z)⟩ : Pos) ::
      cs.map (fun p => ⟨p.x - minInt c.x (cs.map Pos.x), p.y - minInt c.y (cs.map Pos.y),
        p.z - minInt c.z (cs.map Pos.z)⟩) := by
  rw [normalize_cons]
  rfl

lemma mins_zero_after_normalize (c : Pos) (cs : List Pos) :
    ∃ b bs, ((Polycube.mk (c :: cs)).normalize).cubes = b :: bs ∧
      minInt b.x (bs.map Pos.x) = 0 ∧ minInt b.y (bs.map Pos.y) = 0 ∧
      minInt b.z (bs.map Pos.z) = 0 := by
  refine ⟨_, _, normalize_cubes_cons c cs, ?_, ?_, ?_⟩
  · have hmap : (cs.map (fun p => (⟨p.x - minInt c.x (cs.map Pos.x),
        p.y - minInt c.y (cs.map Pos.y), p.z - minInt c.z (cs.map Pos.z)⟩ : Pos))).map Pos.x
        = (cs.map Pos.x).map (· - minInt c.x (cs.map Pos.x)) := by
      simp only [List.map_map]
      rfl
    show minInt (c.x - minInt c.x (cs.map Pos.x)) _ = 0
    rw [hmap]
    exact minInt_shift_zero c.x (cs.map Pos.x)
  · have hmap : (cs.map (fun p => (⟨p.x - minInt c.x (cs.map Pos.x),
        p.y - minInt c.y (cs.map Pos.y), p.z - minInt c.z (cs.map Pos.z)⟩ : Pos))).map Pos.y
        = (cs.map Pos.y).map (· - minInt c.y (cs.map Pos.y)) := by
      simp only [List.map_map]
      rfl
    show minInt (c.y - minInt c.y (cs.map Pos.y)) _ = 0
    rw [hmap]
    exact minInt_shift_zero c.y (cs.map Pos.y)
  · have hmap : (cs.map (fun p => (⟨p.x - minInt c.x (cs.map Pos.x),
        p.y - minInt c.y (cs.map Pos.y), p.z - minInt c.z (cs.map Pos.z)⟩ : Pos))).map Pos.z
        = (cs.map Pos.z).map (· - minInt c.z (cs.map Pos.z)) := by
      simp only [List.map_map]
      rfl
    show minInt (c.z - minInt c.z (cs.map Pos.z)) _ = 0
    rw [hmap]
    exact minInt_shift_zero c.z (cs.map Pos.z)

lemma normalize_normalize (P : Polycube) : P.normalize.normalize = P.normalize := by
  cases P with
  | mk l =>
    cases l with
    | nil => rfl
    | cons c cs =>
      obtain ⟨b, bs, hcubes, hx, hy, hz⟩ := mins_zero_after_normalize c cs
      have heta : (Polycube.mk (c :: cs)).normalize = Polycube.mk (b :: bs) := by
        rw [← hcubes]
      rw [heta, normalize_fix_of_mins_zero hx hy hz]

/-! ### The rotation group -/

lemma rotPos_matMul (a b : Mat3) (p : Pos) : rotPos (matMul a b) p = rotPos a (rotPos b p) := by
  cases a; cases b; cases p
  simp only [rotPos, matMul, Pos.mk.injEq]
  refine ⟨by ring, by ring, by ring⟩

lemma rotPos_id (p : Pos) : rotPos idMat p = p := by
  cases p
  simp only [rotPos, idMat, Pos.mk.injEq]
  refine ⟨by ring, by ring, by ring⟩

lemma rotPos_translate (m : Mat3) (p t : Pos) :
    rotPos m (translatePos p t) = translatePos (rotPos m p) (rotPos m t) := by
  cases m; cases p; cases t
  simp only [rotPos, translatePos, Pos.mk.injEq]
  refine ⟨by ring, by ring, by ring⟩

lemma matMul_assoc (a b c : Mat3) : matMul (matMul a b) c = matMul a (matMul b c) := by
  cases a; cases b; cases c
  simp only [matMul, Mat3.mk.injEq]
  refine ⟨by ring, by ring, by ring, by ring, by ring, by ring, by ring, by ring, by ring⟩

lemma matMul_id_right (a : Mat3) : matMul a idMat = a := by
  cases a
  simp only [matMul, idMat, Mat3.mk.injEq]
  refine ⟨by ring, by ring, by ring, by ring, by ring, by ring, by ring, by ring, by ring⟩

set_option maxHeartbeats 4000000 in
lemma rot_matrices_closure :
    ∀ a ∈ generate_rotation_matrices, ∀ b ∈ generate_rotation_matrices,
      matMul a b ∈ generate_rotation_matrices := by decide

set_option maxHeartbeats 4000000 in
lemma rot_matrices_inverse :
    ∀ a ∈ generate_rotation_matrices, ∃ b ∈ generate_rotation_matrices,
      matMul b a = idMat ∧ matMul a b = idMat := by decide

lemma rot_matrices_div :
    ∀ m ∈ generate_rotation_matrices, ∀ k ∈ generate_rotation_matrices,
      ∃ m' ∈ generate_rotation_matrices, matMul m' m = k := by
  intro m hm k hk
  obtain ⟨mi, hmi, hinv1, -⟩ := rot_matrices_inverse m hm
  refine ⟨matMul k mi, rot_matrices_closure k hk mi hmi, ?_⟩
  rw [matMul_assoc, hinv1, matMul_id_right]

/-! ### The canonical form as a minimum over the 24 candidates -/

lemma pickSmaller_fold_some (rs : List Polycube) : ∀ s : List Pos,
    ∃ r, rs.foldl pickSmaller (some s) = some r ∧
      (r = s ∨ r ∈ rs.map (fun Q => sortPositions Q.cubes)) ∧
      lexicographically_smaller s r = false ∧
      ∀ c ∈ rs.map (fun Q => sortPositions Q.cubes),
        lexicographically_smaller c r = false := by
  induction rs with
  | nil =>
    intro s
    exact ⟨s, rfl, Or.inl rfl, lexicographically_smaller_irrefl s, by simp⟩
  | cons Q rest ih =>
    intro s
    cases hcmp : lexicographically_smaller (sortPositions Q.cubes) s with
    | true =>
      obtain ⟨r, hr, hmem, hle, hall⟩ := ih (sortPositions Q.cubes)
      refine ⟨r, ?_, ?_, ?_, ?_⟩
      · show List.foldl pickSmaller (pickSmaller (some s) Q) rest = some r
        rw [show pickSmaller (some s) Q = some (sortPositions Q.cubes) from by
          simp [pickSmaller, hcmp]]
        exact hr
      · rcases hmem with rfl | h
        · exact Or.inr (by simp)
        · exact Or.inr (by simp only [List.map_cons, List.mem_cons]; exact Or.inr h)
      · rw [Bool.eq_false_iff]
        intro hsr
        have : lexicographically_smaller (sortPositions Q.cubes) r = true :=
          lexicographically_smaller_trans hcmp hsr
        rw [hle] at this
        cases this
      · intro c hc
        rw [List.map_cons] at hc
        rcases List.mem_cons.1 hc with rfl | hc'
        · exact hle
        · exact hall c hc'
    | false =>
      obtain ⟨r, hr, hmem, hle, hall⟩ := ih s
      refine ⟨r, ?_, ?_, hle, ?_⟩
      · show List.foldl pickSmaller (pickSmaller (some s) Q) rest = some r
        rw [show pickSmaller (some s) Q = some s from by simp [pickSmaller, hcmp]]
        exact hr
      · rcases hmem with rfl | h
        · exact Or.inl rfl
        · exact Or.inr (by simp only [List.map_cons, List.mem_cons]; exact Or.inr h)
      · intro c hc
        rw [List.map_cons] at hc
        rcases List.mem_cons.1 hc with rfl | hc'
        · rw [Bool.eq_false_iff]
          intro hcr
          rcases lexicographically_smaller_trichotomy (sortPositions Q.cubes) s
            with h1 | h1 | h1
          · rw [hcmp] at h1; cases h1
          · rw [h1] at hcr; rw [hle] at hcr; cases hcr
          · have : lexicographically_smaller s r = true :=
              lexicographically_smaller_trans h1 hcr
            rw [hle] at this; cases this
        · exact hall c hc'

lemma all_rotations_ne_nil (P : Polycube) : all_rotations P ≠ [] := by
  simp [all_rotations, generate_rotation_matrices]

lemma canonical_positions_spec (P : Polycube) :
    canonical_positions P ∈ canonicalCandidates P ∧
      ∀ c ∈ canonicalCandidates P,
        lexicographically_smaller c (canonical_positions P) = false := by
  unfold canonical_positions canonicalCandidates
  cases har : all_rotations P with
  | nil => exact absurd har (all_rotations_ne_nil P)
  | cons Q rest =>
    obtain ⟨r, hr, hmem, hle, hall⟩ := pickSmaller_fold_some rest (sortPositions Q.cubes)
    have hfold : List.foldl pickSmaller none (Q :: rest) = some r := by
      show List.foldl pickSmaller (pickSmaller none Q) rest = some r
      rw [show pickSmaller none Q = some (sortPositions Q.cubes) from rfl]
      exact hr
    rw [hfold]
    simp only [Option.getD_some]
    constructor
    · rcases hmem with rfl | h
      · simp
      · simp only [List.map_cons, List.mem_cons]; exact Or.inr h
    · intro c hc
      rw [List.map_cons] at hc
      rcases List.mem_cons.1 hc with rfl | hc'
      · exact hle
      · exact hall c hc'

lemma canonical_positions_eq_of_equiv_cands {P R : Polycube}
    (h1 : ∀ c ∈ canonicalCandidates P, c ∈ canonicalCandidates R)
    (h2 : ∀ c ∈ canonicalCandidates R, c ∈ canonicalCandidates P) :
    canonical_positions P = canonical_positions R := by
  obtain ⟨hmemP, hallP⟩ := canonical_positions_spec P
  obtain ⟨hmemR, hallR⟩ := canonical_positions_spec R
  exact lexicographically_smaller_total_eq (hallR _ (h1 _ hmemP)) (hallP _ (h2 _ hmemR))

lemma canonicalCandidates_eq_map (P : Polycube) :
    canonicalCandidates P =
      generate_rotation_matrices.map (fun m => rotatedSortedCand m P.cubes) := by
  unfold canonicalCandidates all_rotations rotatedSortedCand Polycube.apply_rotation
  rw [List.map_map]
  rfl

lemma rotatedSortedCand_matMul (m' m : Mat3) (l : List Pos) :
    rotatedSortedCand m' (l.map (rotPos m)) = rotatedSortedCand (matMul m' m) l := by
  unfold rotatedSortedCand
  rw [List.map_map]
  have hmaps : List.map (rotPos m' ∘ rotPos m) l = List.map (rotPos (matMul m' m)) l :=
    List.map_congr_left (fun p _ => (rotPos_matMul m' m p).symm)
  rw [hmaps]

lemma rotatedSortedCand_translate (m : Mat3) (l : List Pos) (t : Pos) :
    rotatedSortedCand m (l.map (fun p => translatePos p t)) = rotatedSortedCand m l := by
  unfold rotatedSortedCand
  rw [List.map_map]
  have hmaps : List.map (rotPos m ∘ fun p => translatePos p t) l
      = (l.map (rotPos m)).map (fun q => translatePos q (rotPos m t)) := by
    rw [List.map_map]
    exact List.map_congr_left (fun p _ => rotPos_translate m p t)
  rw [hmaps, normalize_map_translate]

lemma rotatedSortedCand_perm {l₁ l₂ : List Pos} (m : Mat3) (h : l₁.Perm l₂) :
    rotatedSortedCand m l₁ = rotatedSortedCand m l₂ :=
  sortPositions_eq_of_perm (normalize_perm (h.map (rotPos m)))

lemma canonical_positions_rot {m : Mat3} (P : Polycube)
    (hm : m ∈ generate_rotation_matrices) :
    canonical_positions (P.apply_rotation m) = canonical_positions P := by
  have hcubes : (P.apply_rotation m).cubes = P.cubes.map (rotPos m) := rfl
  apply canonical_positions_eq_of_equiv_cands
  · intro c hc
    rw [canonicalCandidates_eq_map] at hc
    obtain ⟨m', hm', rfl⟩ := List.mem_map.1 hc
    rw [canonicalCandidates_eq_map]
    refine List.mem_map.2 ⟨matMul m' m, rot_matrices_closure m' hm' m hm, ?_⟩
    rw [hcubes, rotatedSortedCand_matMul]
  · intro c hc
    rw [canonicalCandidates_eq_map] at hc
    obtain ⟨k, hk, rfl⟩ := List.mem_map.1 hc
    rw [canonicalCandidates_eq_map]
    obtain ⟨m', hm', hdiv⟩ := rot_matrices_div m hm k hk
    refine List.mem_map.2 ⟨m', hm', ?_⟩
    rw [hcubes, rotatedSortedCand_matMul, hdiv]

/-! ### Rotation/translation equivalence and the canonical form -/

lemma translatePos_translatePos (q a b : Pos) :
    translatePos (translatePos q a) b = translatePos q ⟨a.x + b.x, a.y + b.y, a.z + b.z⟩ := by
  cases q; cases a; cases b
  simp only [translatePos, Pos.mk.injEq]
  refine ⟨by ring, by ring, by ring⟩

lemma translatePos_cancel (q t : Pos) :
    translatePos (translatePos q t) ⟨-t.x, -t.y, -t.z⟩ = q := by
  cases q; cases t
  simp only [translatePos, Pos.mk.injEq]
  refine ⟨by ring, by ring, by ring⟩

lemma normalize_cubes_as_translate {l : List Pos} (hl : l ≠ []) :
    ∃ t, ((Polycube.mk l).normalize).cubes = l.map (fun p => translatePos p t) := by
  cases l with
  | nil => cases hl rfl
  | cons c cs => exact ⟨_, normalize_eq_map_translate c cs⟩

lemma canonical_positions_eq_of_equiv {S T : Polycube}
    (h : rotation_translation_equiv S T) :
    canonical_positions T = canonical_positions S := by
  obtain ⟨m, hm, t, hperm⟩ := h
  have hsplit : S.cubes.map (fun p => translatePos (rotPos m p) t)
      = (S.cubes.map (rotPos m)).map (fun q => translatePos q t) := by
    rw [List.map_map]; rfl
  apply canonical_positions_eq_of_equiv_cands
  · intro c hc
    rw [canonicalCandidates_eq_map] at hc
    obtain ⟨m', hm', rfl⟩ := List.mem_map.1 hc
    rw [canonicalCandidates_eq_map]
    refine List.mem_map.2 ⟨matMul m' m, rot_matrices_closure m' hm' m hm, ?_⟩
    rw [rotatedSortedCand_perm m' hperm, hsplit, rotatedSortedCand_translate,
      rotatedSortedCand_matMul]
  · intro c hc
    rw [canonicalCandidates_eq_map] at hc
    obtain ⟨k, hk, rfl⟩ := List.mem_map.1 hc
    rw [canonicalCandidates_eq_map]
    obtain ⟨m', hm', hdiv⟩ := rot_matrices_div m hm k hk
    refine List.mem_map.2 ⟨m', hm', ?_⟩
    rw [rotatedSortedCand_perm m' hperm, hsplit, rotatedSortedCand_translate,
      rotatedSortedCand_matMul, hdiv]

lemma equiv_of_canonical_positions_eq {S T : Polycube}
    (hS : S.cubes ≠ []) (hT : T.cubes ≠ [])
    (h : canonical_positions S = canonical_positions T) :
    rotation_translation_equiv S T := by
  obtain ⟨hmemS, -⟩ := canonical_positions_spec S
  obtain ⟨hmemT, -⟩ := canonical_positions_spec T
  rw [canonicalCandidates_eq_map] at hmemS hmemT
  obtain ⟨m1, hm1, hc1⟩ := List.mem_map.1 hmemS
  obtain ⟨m2, hm2, hc2⟩ := List.mem_map.1 hmemT
  have hsorteq : rotatedSortedCand m1 S.cubes = rotatedSortedCand m2 T.cubes := by
    rw [hc1, hc2, h]
  have hXY : (((Polycube.mk (S.cubes.map (rotPos m1))).normalize).cubes).Perm
      (((Polycube.mk (T.cubes.map (rotPos m2))).normalize).cubes) := by
    have h1 := (sortPositions_perm
      (((Polycube.mk (S.cubes.map (rotPos m1))).normalize).cubes)).symm
    rw [show sortPositions (((Polycube.mk (S.cubes.map (rotPos m1))).normalize).cubes)
        = sortPositions (((Polycube.mk (T.cubes.map (rotPos m2))).normalize).cubes)
      from hsorteq] at h1
    exact h1.trans (sortPositions_perm _)
  have hSm : S.cubes.map (rotPos m1) ≠ [] := by
    intro hmap
    exact hS (by simpa using hmap)
  have hTm : T.cubes.map (rotPos m2) ≠ [] := by
    intro hmap
    exact hT (by simpa using hmap)
  obtain ⟨t1, ht1⟩ := normalize_cubes_as_translate hSm
  obtain ⟨t2, ht2⟩ := normalize_cubes_as_translate hTm
  rw [ht1, ht2] at hXY
  obtain ⟨mi, hmi, hinv1, -⟩ := rot_matrices_inverse m2 hm2
  have hYF : (((T.cubes.map (rotPos m2)).map (fun q => translatePos q t2)).map
      (fun q => rotPos mi (translatePos q ⟨-t2.x, -t2.y, -t2.z⟩))) = T.cubes := by
    rw [List.map_map, List.map_map]
    have hpt : ∀ p ∈ T.cubes,
        (((fun q => rotPos mi (translatePos q ⟨-t2.x, -t2.y, -t2.z⟩)) ∘
          (fun q => translatePos q t2)) ∘ rotPos m2) p = p := by
      intro p _
      show rotPos mi (translatePos (translatePos (rotPos m2 p) t2) ⟨-t2.x, -t2.y, -t2.z⟩) = p
      rw [translatePos_cancel, ← rotPos_matMul, hinv1, rotPos_id]
    rw [List.map_congr_left hpt]
    simp
  have hXF : (((S.cubes.map (rotPos m1)).map (fun q => translatePos q t1)).map
      (fun q => rotPos mi (translatePos q ⟨-t2.x, -t2.y, -t2.z⟩)))
      = S.cubes.map (fun p => translatePos (rotPos (matMul mi m1) p)
          (rotPos mi (translatePos t1 ⟨-t2.x, -t2.y, -t2.z⟩))) := by
    rw [List.map_map, List.map_map]
    refine List.map_congr_left ?_
    intro p _
    show rotPos mi (translatePos (translatePos (rotPos m1 p) t1) ⟨-t2.x, -t2.y, -t2.z⟩) = _
    rw [translatePos_translatePos, rotPos_translate, ← rotPos_matMul]
    rfl
  have hfinal := hXY.symm.map (fun q => rotPos mi (translatePos q ⟨-t2.x, -t2.y, -t2.z⟩))
  rw [hYF, hXF] at hfinal
  exact ⟨matMul mi m1, rot_matrices_closure mi hmi m1 hm1, _, hfinal⟩

lemma equiv_length {S T : Polycube} (h : rotation_translation_equiv S T) :
    T.cubes.length = S.cubes.length := by
  obtain ⟨m, -, t, hperm⟩ := h
  rw [hperm.length_eq, List.length_map]

/-! ### The hash has finite range -/

lemma fxAdd_lt (h v : Nat) : fxAdd h v < 2 ^ 64 :=
  Nat.mod_lt _ (by norm_num)

lemma fxhash_lt (l : List Pos) : fxhash l < 2 ^ 64 := by
  have aux : ∀ (l' : List Pos) (h0 : Nat), h0 < 2 ^ 64 →
      l'.foldl (fun h p => fxAdd (fxAdd (fxAdd h (u8OfInt p.x)) (u8OfInt p.y)) (u8OfInt p.z))
        h0 < 2 ^ 64 := by
    intro l'
    induction l' with
    | nil => intro h0 hh; exact hh
    | cons p ps ih => intro h0 _; exact ih _ (fxAdd_lt _ _)
  exact aux l _ (fxAdd_lt 0 l.length)

lemma get_canonical_hash_lt (P : Polycube) : P.get_canonical_hash < 2 ^ 64 :=
  fxhash_lt _

lemma lineShape_cubes_length (n : Nat) : (lineShape n).cubes.length = n := by
  show ((List.range n).map _).length = n
  rw [List.length_map, List.length_range]

lemma lineShape_ne_nil (n : Nat) : (lineShape (n + 1)).cubes ≠ [] := by
  intro hnil
  have := congrArg List.length hnil
  rw [lineShape_cubes_length] at this
  cases this

lemma lineShape_nodup (n : Nat) : (lineShape n).cubes.Nodup := by
  refine List.Nodup.map ?_ (List.nodup_range n)
  intro a b hab
  simp only [Pos.mk.injEq] at hab
  exact Int.ofNat.inj hab.1

/-! ### Soundness and completeness of the connectivity traversal -/

lemma visitStep_fold_spec (occ : List Pos) (l : List Pos) : ∀ q v : List Pos,
    ∃ extra : List Pos,
      l.foldl (visitStep occ) (q, v) = (extra ++ q, extra ++ v) ∧
      (∀ a ∈ extra, a ∈ l ∧ a ∈ occ ∧ a ∉ v) ∧ extra.Nodup ∧
      (∀ a ∈ l, a ∈ occ → a ∈ extra ++ v) := by
  induction l with
  | nil =>
    intro q v
    exact ⟨[], rfl, by simp, List.nodup_nil, by simp⟩
  | cons a rest ih =>
    intro q v
    by_cases ha : a ∈ occ ∧ a ∉ v
    · have hstep : visitStep occ (q, v) a = (a :: q, a :: v) := by
        simp [visitStep, ha]
      obtain ⟨extra, heq, hmem, hnd, hcompl⟩ := ih (a :: q) (a :: v)
      refine ⟨extra ++ [a], ?_, ?_, ?_, ?_⟩
      · show List.foldl (visitStep occ) (visitStep occ (q, v) a) rest = _
        rw [hstep, heq, List.append_cons extra a q, List.append_cons extra a v]
      · intro b hb
        rcases List.mem_append.1 hb with hb' | hb'
        · obtain ⟨hbl, hbocc, hbv⟩ := hmem b hb'
          exact ⟨List.mem_cons_of_mem a hbl, hbocc,
            fun hbv' => hbv (List.mem_cons_of_mem a hbv')⟩
        · rw [List.mem_singleton] at hb'
          subst hb'
          exact ⟨List.mem_cons_self _ _, ha.1, ha.2⟩
      · refine hnd.append (List.nodup_singleton a) ?_
        intro b hb hb'
        rw [List.mem_singleton] at hb'
        subst hb'
        exact (hmem b hb).2.2 (List.mem_cons_self _ _)
      · intro b hbl hbocc
        rcases List.mem_cons.1 hbl with rfl | hbl'
        · exact List.mem_append.2 (Or.inl (List.mem_append.2 (Or.inr (List.mem_singleton.2 rfl))))
        · rcases List.mem_append.1 (hcompl b hbl' hbocc) with hbe | hbe
          · exact List.mem_append.2 (Or.inl (List.mem_append.2 (Or.inl hbe)))
          · rcases List.mem_cons.1 hbe with rfl | hbe'
            · exact List.mem_append.2 (Or.inl (List.mem_append.2 (Or.inr (List.mem_singleton.2 rfl))))
            · exact List.mem_append.2 (Or.inr hbe')
    · have hstep : visitStep occ (q, v) a = (q, v) := by
        simp only [visitStep, if_neg ha]
      obtain ⟨extra, heq, hmem, hnd, hcompl⟩ := ih q v
      refine ⟨extra, ?_,
        fun b hb => ⟨List.mem_cons_of_mem a (hmem b hb).1, (hmem b hb).2⟩, hnd, ?_⟩
      · show List.foldl (visitStep occ) (visitStep occ (q, v) a) rest = _
        rw [hstep, heq]
      · intro b hbl hbocc
        rcases List.mem_cons.1 hbl with rfl | hbl'
        · rcases Decidable.em (b ∈ v) with hv | hv
          · exact List.mem_append.2 (Or.inr hv)
          · exact absurd ⟨hbocc, hv⟩ ha
        · exact hcompl b hbl' hbocc

lemma bfsLoop_spec (occ : List Pos) (r : Pos) : ∀ (fuel : Nat) (queue visited : List Pos),
    (occ.dedup.filter (fun p => decide (p ∉ visited))).length + queue.length ≤ fuel →
    (∀ a ∈ queue, a ∈ visited) →
    visited.Nodup →
    (∀ a ∈ visited, a ∈ occ) →
    (∀ a ∈ visited, a ∉ queue → ∀ w ∈ a.adjacent_positions, w ∈ occ → w ∈ visited) →
    (∀ a ∈ visited, ReachIn occ r a) →
    (∀ a ∈ visited, a ∈ bfsLoop occ fuel queue visited) ∧
      (bfsLoop occ fuel queue visited).Nodup ∧
      (∀ a ∈ bfsLoop occ fuel queue visited, a ∈ occ) ∧
      (∀ a ∈ bfsLoop occ fuel queue visited, ReachIn occ r a) ∧
      (∀ a ∈ bfsLoop occ fuel queue visited, ∀ w ∈ a.adjacent_positions,
        w ∈ occ → w ∈ bfsLoop occ fuel queue visited) := by
  intro fuel
  induction fuel with
  | zero =>
    intro queue visited hmeas hqv hnd hvocc hclosed hreach
    cases queue with
    | nil =>
      refine ⟨fun a ha => ha, hnd, hvocc, hreach, ?_⟩
      intro a ha w hw hwocc
      exact hclosed a ha (by simp) w hw hwocc
    | cons current rest =>
      exfalso
      simp only [List.length_cons] at hmeas
      omega
  | succ fuel ih =>
    intro queue visited hmeas hqv hnd hvocc hclosed hreach
    cases queue with
    | nil =>
      refine ⟨fun a ha => ha, hnd, hvocc, hreach, ?_⟩
      intro a ha w hw hwocc
      exact hclosed a ha (by simp) w hw hwocc
    | cons current rest =>
      obtain ⟨extra, heq, hextra, hndx, hcompl⟩ :=
        visitStep_fold_spec occ current.adjacent_positions rest visited
      have hcv : current ∈ visited := hqv current (List.mem_cons_self _ _)
      have hcocc : current ∈ occ := hvocc current hcv
      have hunfold : bfsLoop occ (fuel + 1) (current :: rest) visited
          = bfsLoop occ fuel (extra ++ rest) (extra ++ visited) := by
        show bfsLoop occ fuel
          (current.adjacent_positions.foldl (visitStep occ) (rest, visited)).1
          (current.adjacent_positions.foldl (visitStep occ) (rest, visited)).2 = _
        rw [heq]
      rw [hunfold]
      have hsub : ∀ a ∈ visited, a ∈ extra ++ visited :=
        fun a ha => List.mem_append.2 (Or.inr ha)
      have hqv' : ∀ a ∈ extra ++ rest, a ∈ extra ++ visited := by
        intro a ha
        rcases List.mem_append.1 ha with h' | h'
        · exact List.mem_append.2 (Or.inl h')
        · exact List.mem_append.2 (Or.inr (hqv a (List.mem_cons_of_mem _ h')))
      have hnd' : (extra ++ visited).Nodup :=
        hndx.append hnd (fun b hb => (hextra b hb).2.2)
      have hvocc' : ∀ a ∈ extra ++ visited, a ∈ occ := by
        intro a ha
        rcases List.mem_append.1 ha with h' | h'
        · exact (hextra a h').2.1
        · exact hvocc a h'
      have hreach' : ∀ a ∈ extra ++ visited, ReachIn occ r a := by
        intro a ha
        rcases List.mem_append.1 ha with h' | h'
        · exact Relation.ReflTransGen.tail (hreach current hcv)
            ⟨hcocc, (hextra a h').2.1, (hextra a h').1⟩
        · exact hreach a h'
      have hclosed' : ∀ a ∈ extra ++ visited, a ∉ extra ++ rest →
          ∀ w ∈ a.adjacent_positions, w ∈ occ → w ∈ extra ++ visited := by
        intro a ha hnq w hw hwocc
        have hanx : a ∉ extra := fun h' => hnq (List.mem_append.2 (Or.inl h'))
        have hanr : a ∉ rest := fun h' => hnq (List.mem_append.2 (Or.inr h'))
        have hav : a ∈ visited := by
          rcases List.mem_append.1 ha with h' | h'
          · exact absurd h' hanx
          · exact h'
        rcases Decidable.em (a = current) with rfl | hne
        · exact hcompl w hw hwocc
        · have : a ∉ current :: rest := by
            intro h'
            rcases List.mem_cons.1 h' with h'' | h''
            · exact hne h''
            · exact hanr h''
          exact List.mem_append.2 (Or.inr (hclosed a hav this w hw hwocc))
      have hmeas' : ((occ.dedup.filter
            (fun p => decide (p ∉ extra ++ visited))).length + (extra ++ rest).length ≤ fuel) := by
        have hlen : (extra ++ (occ.dedup.filter
            (fun p => decide (p ∉ extra ++ visited)))).length
            ≤ (occ.dedup.filter (fun p => decide (p ∉ visited))).length := by
          have hndfilter : (occ.dedup.filter
              (fun p => decide (p ∉ extra ++ visited))).Nodup :=
            (List.nodup_dedup occ).filter _
          have hndall : (extra ++ (occ.dedup.filter
              (fun p => decide (p ∉ extra ++ visited)))).Nodup := by
            refine hndx.append hndfilter ?_
            intro b hb hb'
            have := List.of_mem_filter hb'
            simp only [decide_eq_true_eq] at this
            exact this (List.mem_append.2 (Or.inl hb))
          have hsuball : ∀ b ∈ extra ++ (occ.dedup.filter
              (fun p => decide (p ∉ extra ++ visited))),
              b ∈ occ.dedup.filter (fun p => decide (p ∉ visited)) := by
            intro b hb
            rcases List.mem_append.1 hb with h' | h'
            · refine List.mem_filter.2 ⟨List.mem_dedup.2 (hextra b h').2.1, ?_⟩
              simp only [decide_eq_true_eq]
              exact (hextra b h').2.2
            · have hmem' := List.mem_filter.1 h'
              refine List.mem_filter.2 ⟨hmem'.1, ?_⟩
              simp only [decide_eq_true_eq] at hmem' ⊢
              exact fun hbv => hmem'.2 (List.mem_append.2 (Or.inr hbv))
          exact (List.subperm_of_subset hndall hsuball).length_le
        rw [List.length_append] at hlen ⊢
        simp only [List.length_cons] at hmeas
        omega
      obtain ⟨h1, h2, h3, h4, h5⟩ :=
        ih (extra ++ rest) (extra ++ visited) hmeas' hqv' hnd' hvocc' hclosed' hreach'
      exact ⟨fun a ha => h1 a (hsub a ha), h2, h3, h4, h5⟩

/-- The connectivity check decides reachability of every cube from the first,
together with the absence of duplicates (duplicates make the visited count fall
short of the list length). -/
lemma is_face_connected_iff (P : Polycube) :
    P.is_face_connected = true ↔
      P.cubes.Nodup ∧ ∀ b ∈ P.cubes, ReachIn P.cubes P.cubes.headI b := by
  obtain ⟨l⟩ := P
  match l with
  | [] =>
    constructor
    · intro _
      exact ⟨List.nodup_nil, fun b hb => absurd hb (by simp)⟩
    · intro _
      rfl
  | [c] =>
    constructor
    · intro _
      refine ⟨List.nodup_singleton c, ?_⟩
      intro b hb
      rw [List.mem_singleton] at hb
      subst hb
      exact Relation.ReflTransGen.refl
    · intro _
      rfl
  | c1 :: c2 :: cs =>
    have hunfold : (Polycube.mk (c1 :: c2 :: cs)).is_face_connected
        = ((bfsLoop (c1 :: c2 :: cs) ((c1 :: c2 :: cs).length + 1) [c1] [c1]).length
            == (c1 :: c2 :: cs).length) := by
      show (if (c1 :: c2 :: cs).length ≤ 1 then true
        else ((bfsLoop (c1 :: c2 :: cs) ((c1 :: c2 :: cs).length + 1) [c1] [c1]).length
            == (c1 :: c2 :: cs).length)) = _
      rw [if_neg (by simp)]
    have hmeas : ((c1 :: c2 :: cs).dedup.filter
        (fun p => decide (p ∉ ([c1] : List Pos)))).length + ([c1] : List Pos).length
        ≤ (c1 :: c2 :: cs).length + 1 := by
      have h1 : ((c1 :: c2 :: cs).dedup.filter
          (fun p => decide (p ∉ ([c1] : List Pos)))).length ≤ (c1 :: c2 :: cs).dedup.length :=
        List.length_filter_le _ _
      have h2 : (c1 :: c2 :: cs).dedup.length ≤ (c1 :: c2 :: cs).length :=
        (List.dedup_sublist _).length_le
      simp only [List.length_singleton]
      omega
    have hqv : ∀ a ∈ ([c1] : List Pos), a ∈ ([c1] : List Pos) := fun a ha => ha
    have hnd1 : ([c1] : List Pos).Nodup := List.nodup_singleton c1
    have hvocc : ∀ a ∈ ([c1] : List Pos), a ∈ c1 :: c2 :: cs := by
      intro a ha
      rw [List.mem_singleton] at ha
      subst ha
      exact List.mem_cons_self _ _
    have hclosed : ∀ a ∈ ([c1] : List Pos), a ∉ ([c1] : List Pos) →
        ∀ w ∈ a.adjacent_positions, w ∈ c1 :: c2 :: cs → w ∈ ([c1] : List Pos) :=
      fun a ha ha' => absurd ha ha'
    have hreach1 : ∀ a ∈ ([c1] : List Pos), ReachIn (c1 :: c2 :: cs) c1 a := by
      intro a ha
      rw [List.mem_singleton] at ha
      subst ha
      exact Relation.ReflTransGen.refl
    obtain ⟨hvis, hndR, hRocc, hreachR, hclosure⟩ :=
      bfsLoop_spec (c1 :: c2 :: cs) c1 ((c1 :: c2 :: cs).length + 1) [c1] [c1]
        hmeas hqv hnd1 hvocc hclosed hreach1
    rw [hunfold]
    constructor
    · intro h
      have hlenR : (bfsLoop (c1 :: c2 :: cs) ((c1 :: c2 :: cs).length + 1)
          [c1] [c1]).length = (c1 :: c2 :: cs).length := beq_iff_eq.1 h
      have hsubp : List.Subperm
          (bfsLoop (c1 :: c2 :: cs) ((c1 :: c2 :: cs).length + 1) [c1] [c1])
          ((c1 :: c2 :: cs).dedup) :=
        List.subperm_of_subset hndR (fun a ha => List.mem_dedup.2 (hRocc a ha))
      have hdl : (c1 :: c2 :: cs).dedup.length = (c1 :: c2 :: cs).length := by
        have h1 := hsubp.length_le
        have h2 : (c1 :: c2 :: cs).dedup.length ≤ (c1 :: c2 :: cs).length :=
          (List.dedup_sublist _).length_le
        omega
      have hnodup : (c1 :: c2 :: cs).Nodup :=
        List.dedup_eq_self.1 ((List.dedup_sublist _).eq_of_length hdl)
      have hperm : (bfsLoop (c1 :: c2 :: cs) ((c1 :: c2 :: cs).length + 1) [c1] [c1]).Perm
          ((c1 :: c2 :: cs).dedup) :=
        hsubp.perm_of_length_le (by omega)
      refine ⟨hnodup, ?_⟩
      intro b hb
      exact hreachR b (hperm.mem_iff.2 (List.mem_dedup.2 hb))
    · rintro ⟨hnodup, hreach⟩
      have hRall : ∀ b ∈ c1 :: c2 :: cs,
          b ∈ bfsLoop (c1 :: c2 :: cs) ((c1 :: c2 :: cs).length + 1) [c1] [c1] := by
        intro b hb
        have hr := hreach b hb
        clear hb
        induction hr with
        | refl => exact hvis c1 (List.mem_singleton.2 rfl)
        | tail hprev hstep ih => exact hclosure _ ih _ hstep.2.2 hstep.2.1
      have hsub1 : List.Subperm
          (bfsLoop (c1 :: c2 :: cs) ((c1 :: c2 :: cs).length + 1) [c1] [c1])
          (c1 :: c2 :: cs) := List.subperm_of_subset hndR hRocc
      have hsub2 : List.Subperm (c1 :: c2 :: cs)
          (bfsLoop (c1 :: c2 :: cs) ((c1 :: c2 :: cs).length + 1) [c1] [c1]) :=
        List.subperm_of_subset hnodup hRall
      exact beq_iff_eq.2 (hsub1.antisymm hsub2).length_eq

/-- Face-connectivity is preserved by appending a frontier position: the heart
of claim C5. -/
lemma expand_is_face_connected {S : Polycube} (h : S.is_face_connected = true)
    {p : Pos} (hp : p ∈ S.get_expansion_positions) :
    (S.expand p).is_face_connected = true := by
  obtain ⟨hnd, hreach⟩ := (is_face_connected_iff S).1 h
  have hp' : p ∉ S.cubes ∧ ∃ c, c ∈ S.cubes ∧ p ∈ c.adjacent_positions := by
    unfold Polycube.get_expansion_positions at hp
    rw [List.mem_dedup, List.mem_filter] at hp
    obtain ⟨hflat, hnot⟩ := hp
    simp only [decide_eq_true_eq] at hnot
    rw [List.mem_flatMap] at hflat
    exact ⟨hnot, hflat⟩
  obtain ⟨hpnot, c, hc, hpc⟩ := hp'
  rw [is_face_connected_iff]
  have hexp : (S.expand p).cubes = S.cubes ++ [p] := rfl
  cases hS : S.cubes with
  | nil => rw [hS] at hc; cases hc
  | cons c0 cs =>
    have hhead : S.cubes.headI = c0 := by rw [hS]; rfl
    have hheadI : (S.expand p).cubes.headI = c0 := by
      rw [hexp, hS]; rfl
    have hmono : ∀ x y, ReachIn S.cubes x y → ReachIn (S.expand p).cubes x y := by
      intro x y hxy
      refine Relation.ReflTransGen.mono ?_ hxy
      intro u v huv
      exact ⟨by rw [hexp]; exact List.mem_append.2 (Or.inl huv.1),
        by rw [hexp]; exact List.mem_append.2 (Or.inl huv.2.1), huv.2.2⟩
    constructor
    · rw [hexp]
      refine hnd.append (List.nodup_singleton p) ?_
      intro b hb hb'
      rw [List.mem_singleton] at hb'
      subst hb'
      exact hpnot hb
    · intro b hb
      rw [hheadI]
      rw [hexp] at hb
      rcases List.mem_append.1 hb with hb' | hb'
      · exact hmono _ _ (hhead ▸ hreach b hb')
      · rw [List.mem_singleton] at hb'
        subst hb'
        refine Relation.ReflTransGen.tail (hmono _ _ (hhead ▸ hreach c hc)) ?_
        refine ⟨?_, ?_, hpc⟩
        · rw [hexp]; exact List.mem_append.2 (Or.inl hc)
        · rw [hexp]; exact List.mem_append.2 (Or.inr (List.mem_singleton.2 rfl))

/-! ### Translation invariance of connectivity, and the generation invariant -/

lemma adjacent_positions_translate (a t : Pos) :
    (translatePos a t).adjacent_positions
      = a.adjacent_positions.map (fun w => translatePos w t) := by
  cases a; cases t
  simp only [Pos.adjacent_positions, translatePos, List.map_cons, List.map_nil,
    List.cons.injEq, Pos.mk.injEq, and_true]
  and_intros <;> first | trivial | ring

lemma translatePos_injective (t : Pos) :
    Function.Injective (fun p => translatePos p t) := by
  intro a b h
  have h2 := congrArg (fun q => translatePos q ⟨-t.x, -t.y, -t.z⟩) h
  simpa only [translatePos_cancel] using h2

lemma ReachIn_translate {l : List Pos} {t a b : Pos} (h : ReachIn l a b) :
    ReachIn (l.map (fun p => translatePos p t)) (translatePos a t) (translatePos b t) := by
  refine Relation.ReflTransGen.lift (fun p => translatePos p t) ?_ h
  intro u v huv
  refine ⟨List.mem_map_of_mem _ huv.1, List.mem_map_of_mem _ huv.2.1, ?_⟩
  rw [adjacent_positions_translate]
  exact List.mem_map_of_mem _ huv.2.2

lemma is_face_connected_translate {l : List Pos} (t : Pos)
    (h : (Polycube.mk l).is_face_connected = true) :
    (Polycube.mk (l.map (fun p => translatePos p t))).is_face_connected = true := by
  obtain ⟨hnd, hreach⟩ := (is_face_connected_iff _).1 h
  rw [is_face_connected_iff]
  constructor
  · exact hnd.map (translatePos_injective t)
  · intro b hb
    obtain ⟨b0, hb0, rfl⟩ := List.mem_map.1 hb
    cases l with
    | nil => cases hb0
    | cons c cs =>
      show ReachIn ((c :: cs).map (fun p => translatePos p t))
        (((c :: cs).map (fun p => translatePos p t)).headI) (translatePos b0 t)
      have hhead : ((c :: cs).map (fun p => translatePos p t)).headI = translatePos c t := rfl
      rw [hhead]
      exact ReachIn_translate (hreach b0 hb0)

lemma foldl_preserve {α σ : Type _} (inv : σ → Prop) (f : σ → α → σ)
    (l : List α) : ∀ s, inv s → (∀ s' a, a ∈ l → inv s' → inv (f s' a)) →
    inv (l.foldl f s) := by
  induction l with
  | nil => intro s hs _; exact hs
  | cons a rest ih =>
    intro s hs hstep
    exact ih (f s a) (hstep s a (List.mem_cons_self _ _) hs)
      (fun s' a' ha' => hstep s' a' (List.mem_cons_of_mem _ ha'))

lemma generate_polycubes_inv : ∀ (n : Nat) (uc : Bool) (P : Polycube),
    P ∈ generate_polycubes n uc →
    P.normalize = P ∧ P.is_face_connected = true ∧ P.cubes ≠ [] := by
  intro n
  induction n using Nat.strong_induction_on with
  | _ n ih =>
    intro uc P hP
    obtain _ | _ | _ | m := n
    · cases hP
    · rw [show generate_polycubes 1 uc = [Polycube.unit_cube] from rfl,
        List.mem_singleton] at hP
      subst hP
      exact ⟨by decide, by decide, by decide⟩
    · rw [show generate_polycubes 2 uc = [Polycube.domino] from rfl,
        List.mem_singleton] at hP
      subst hP
      exact ⟨by decide, by decide, by decide⟩
    · rw [show generate_polycubes (m + 3) uc = ((generate_polycubes (m + 2) uc).foldl
          (fun results base_cube =>
            base_cube.get_expansion_positions.foldl (generateStep base_cube) results)
          ([], [])).2.reverse from rfl, List.mem_reverse] at hP
      refine foldl_preserve
        (fun st : List (List Pos) × List Polycube =>
          ∀ Q ∈ st.2, Q.normalize = Q ∧ Q.is_face_connected = true ∧ Q.cubes ≠ [])
        _ (generate_polycubes (m + 2) uc) ([], []) (by simp) ?_ P hP
      intro st base hbase hinv
      refine foldl_preserve
        (fun st : List (List Pos) × List Polycube =>
          ∀ Q ∈ st.2, Q.normalize = Q ∧ Q.is_face_connected = true ∧ Q.cubes ≠ [])
        (generateStep base) base.get_expansion_positions st hinv ?_
      intro st' pos hpos hinv'
      intro Q hQ
      simp only [generateStep] at hQ
      by_cases hconn : (base.expand pos).is_face_connected = true
      · rw [if_pos hconn] at hQ
        by_cases hseen : (base.expand pos).normalize.get_canonical_form ∈ st'.1
        · rw [if_pos hseen] at hQ
          exact hinv' Q hQ
        · rw [if_neg hseen] at hQ
          rcases List.mem_cons.1 hQ with rfl | hQ'
          · have hne : (base.expand pos).cubes ≠ [] := by
              show base.cubes ++ [pos] ≠ []
              simp
            obtain ⟨t, ht⟩ := normalize_cubes_as_translate hne
            have heq : (base.expand pos).normalize
                = Polycube.mk ((base.expand pos).cubes.map (fun p => translatePos p t)) := by
              rw [← ht]
            refine ⟨normalize_normalize _, ?_, ?_⟩
            · rw [heq]
              exact is_face_connected_translate t hconn
            · rw [heq]
              intro hnil
              exact hne (by simpa using hnil)
          · exact hinv' Q hQ'
      · rw [if_neg hconn] at hQ
        exact hinv' Q hQ

/-! ### Claims C2 through C5 -/

/-- C2: the canonical signature is rotation-invariant: for every shape `S` and
every one of the 24 rotation matrices `R`, `get_canonical_hash` applied to the
rotated shape `R·S` equals `get_canonical_hash` applied to `S`. -/
theorem claim_C2_hash_rotation_invariant (P : Polycube) (m : Mat3)
    (hm : m ∈ generate_rotation_matrices) :
    (P.apply_rotation m).get_canonical_hash = P.get_canonical_hash := by
  show fxhash (canonical_positions (P.apply_rotation m)) = fxhash (canonical_positions P)
  rw [canonical_positions_rot P hm]

/-- Witness for C2 at a concrete shape and matrix. -/
theorem claim_C2_hash_rotation_invariant_witness :
    (Polycube.domino.apply_rotation ⟨0, 1, 0, -1, 0, 0, 0, 0, 1⟩).get_canonical_hash
      = Polycube.domino.get_canonical_hash :=
  claim_C2_hash_rotation_invariant Polycube.domino ⟨0, 1, 0, -1, 0, 0, 0, 0, 1⟩ (by decide)

/-- C3, counterexample: hash equality does not imply rotation/translation
equivalence.  The canonical hash takes values below `2 ^ 64` while the straight
lines of distinct lengths are infinitely many pairwise inequivalent shapes, so
two of them collide; hence the claimed equivalence "hash equal iff related by a
rotation and a translation" is false. -/
theorem claim_C3_counterexample :
    ¬ (∀ S T : Polycube, S.cubes ≠ [] → S.cubes.Nodup → T.cubes ≠ [] → T.cubes.Nodup →
        (S.get_canonical_hash = T.get_canonical_hash ↔ rotation_translation_equiv S T)) := by
  intro hclaim
  obtain ⟨a, b, hab, hfeq⟩ := Finite.exists_ne_map_eq_of_infinite
    (fun n : Nat => (⟨(lineShape (n + 1)).get_canonical_hash,
      get_canonical_hash_lt _⟩ : Fin (2 ^ 64)))
  have hhash : (lineShape (a + 1)).get_canonical_hash
      = (lineShape (b + 1)).get_canonical_hash := congrArg Fin.val hfeq
  have hequiv := (hclaim _ _ (lineShape_ne_nil a) (lineShape_nodup _)
    (lineShape_ne_nil b) (lineShape_nodup _)).1 hhash
  have hlen := equiv_length hequiv
  rw [lineShape_cubes_length, lineShape_cubes_length] at hlen
  exact hab (by omega)

/-- C3, amended: for nonempty duplicate-free shapes, the canonical position
sequences (the lexicographically smallest sorted rotations, of which the hash is
a digest) are equal exactly when one shape is a rotation of the other followed
by a translation; and equivalent shapes always have equal canonical hashes.
Only the converse of the hash part fails (by collision). -/
theorem claim_C3_amended (S T : Polycube) (hS1 : S.cubes ≠ []) (_hS2 : S.cubes.Nodup)
    (hT1 : T.cubes ≠ []) (_hT2 : T.cubes.Nodup) :
    (canonical_positions S = canonical_positions T ↔ rotation_translation_equiv S T) ∧
    (rotation_translation_equiv S T → S.get_canonical_hash = T.get_canonical_hash) := by
  refine ⟨⟨fun h => equiv_of_canonical_positions_eq hS1 hT1 h,
    fun h => (canonical_positions_eq_of_equiv h).symm⟩, ?_⟩
  intro h
  show fxhash (canonical_positions S) = fxhash (canonical_positions T)
  rw [canonical_positions_eq_of_equiv h]

/-- Witness for the amended C3 at concrete shapes. -/
theorem claim_C3_amended_witness :
    (canonical_positions Polycube.domino
        = canonical_positions (Polycube.mk [⟨4, 5, 6⟩, ⟨4, 6, 6⟩]) ↔
      rotation_translation_equiv Polycube.domino (Polycube.mk [⟨4, 5, 6⟩, ⟨4, 6, 6⟩])) ∧
    (rotation_translation_equiv Polycube.domino (Polycube.mk [⟨4, 5, 6⟩, ⟨4, 6, 6⟩]) →
      Polycube.domino.get_canonical_hash
        = (Polycube.mk [⟨4, 5, 6⟩, ⟨4, 6, 6⟩]).get_canonical_hash) :=
  claim_C3_amended _ _ (by decide) (by decide) (by decide) (by decide)

/-- C4, counterexample: not every shape returned by `generate_polycubes` equals
the lexicographically smallest of its own 24 rotated, normalized, sorted
variants: at size 3 the generator keeps an x-axis straight tromino whose
canonical variant is the z-axis line. -/
theorem claim_C4_counterexample :
    ¬ (∀ P ∈ generate_polycubes 3 false, P.cubes = P.get_canonical_form) := by
  decide

/-- C4, amended: every shape returned by `generate_polycubes n use_cache` is
normalized — it is nonempty and equals its own `normalize` (equivalently, its
minimum coordinate on every axis is zero) — but it is the canonical form only
as a deduplication key, not as the stored representative. -/
theorem claim_C4_generated_shapes_normalized :
    ∀ (n : Nat) (uc : Bool), ∀ P ∈ generate_polycubes n uc,
      P.normalize = P ∧ P.cubes ≠ [] :=
  fun n uc P hP =>
    ⟨(generate_polycubes_inv n uc P hP).1, (generate_polycubes_inv n uc P hP).2.2⟩

/-- Witness for the amended C4 at size 1. -/
theorem claim_C4_generated_shapes_normalized_witness :
    Polycube.unit_cube.normalize = Polycube.unit_cube ∧ Polycube.unit_cube.cubes ≠ [] :=
  claim_C4_generated_shapes_normalized 1 false Polycube.unit_cube (by decide)

/-- C5: expanding a face-connected shape at any of its expansion positions
yields a face-connected shape (so the connectivity rejection branch of the
generator never fires for candidates built from connected bases), and every
shape returned by `generate_polycubes` passes `is_face_connected`. -/
theorem claim_C5_connectivity_preserved :
    (∀ (S : Polycube), S.is_face_connected = true →
      ∀ p ∈ S.get_expansion_positions, (S.expand p).is_face_connected = true) ∧
    (∀ (n : Nat) (uc : Bool), ∀ P ∈ generate_polycubes n uc,
      P.is_face_connected = true) :=
  ⟨fun _ hS _ hp => expand_is_face_connected hS hp,
   fun n uc P hP => (generate_polycubes_inv n uc P hP).2.1⟩

/-- Witness for C5 at the unit cube and one of its expansion positions. -/
theorem claim_C5_connectivity_preserved_witness :
    (Polycube.unit_cube.expand ⟨1, 0, 0⟩).is_face_connected = true :=
  claim_C5_connectivity_preserved.1 Polycube.unit_cube (by decide) ⟨1, 0, 0⟩ (by decide)

/-! ### Claims C6, C9 and C10 -/

/-- C6: `count_free_polycubes` returns the tabulated constant for sizes 3
through 11, the hard-coded literal 18598427 at size 12, and the fixed count
divided by 24 (integer division) for every size of at least 13; `threads`
ranges over all thread-pool sizes. -/
theorem claim_C6_free_counter_dispatch (threads : Nat) :
    (count_free_polycubes 3 threads = 2 ∧ count_free_polycubes 4 threads = 8 ∧
     count_free_polycubes 5 threads = 29 ∧ count_free_polycubes 6 threads = 166 ∧
     count_free_polycubes 7 threads = 1023 ∧ count_free_polycubes 8 threads = 6922 ∧
     count_free_polycubes 9 threads = 48311 ∧ count_free_polycubes 10 threads = 346543 ∧
     count_free_polycubes 11 threads = 2522522) ∧
    count_free_polycubes 12 threads = 18598427 ∧
    (∀ n, 13 ≤ n →
      count_free_polycubes n threads = count_fixed_polycubes n threads / 24) := by
  refine ⟨⟨rfl, rfl, rfl, rfl, rfl, rfl, rfl, rfl, rfl⟩, rfl, ?_⟩
  intro n hn
  unfold count_free_polycubes
  have hA : ¬ n ≤ 2 := by omega
  have h3 : n ≠ 3 := by omega
  have h4 : n ≠ 4 := by omega
  have h5 : n ≠ 5 := by omega
  have h6 : n ≠ 6 := by omega
  have h7 : n ≠ 7 := by omega
  have h8 : n ≠ 8 := by omega
  have h9 : n ≠ 9 := by omega
  have h10 : n ≠ 10 := by omega
  have h11 : n ≠ 11 := by omega
  have h12 : n ≠ 12 := by omega
  rw [if_neg hA, if_neg h3, if_neg h4, if_neg h5, if_neg h6,
    if_neg h7, if_neg h8, if_neg h9, if_neg h10, if_neg h11]
  show (if n = 12 then 18598427 else count_fixed_polycubes n threads / 24) = _
  rw [if_neg h12]

/-- Witness for C6's division clause at size 13 (hypothesis 13 ≤ 13). -/
theorem claim_C6_free_counter_dispatch_witness :
    count_free_polycubes 13 1 = count_fixed_polycubes 13 1 / 24 :=
  (claim_C6_free_counter_dispatch 1).2.2 13 (by decide)

/-- C9: the alternate-branch comparison loop inside `count_extensions_from`
(which canonicalizes and hashes each remaining extension, compares the hash and
discards the outcome) has no effect: on every input the function returns the
same count as the variant with the loop removed. -/
theorem claim_C9_dead_loop_no_effect :
    ∀ (positions : List Pos) (remaining : Nat),
      count_extensions_from positions remaining
        = count_extensions_without_dead_loop positions remaining := by
  have hgen : ∀ (f : Nat × List Nat → Nat × Pos → Nat × List Nat)
      (g : Nat × List Nat → Pos → Nat × List Nat),
      (∀ s i a, f s (i, a) = g s a) → ∀ (l : List Pos) (i : Nat) (s : Nat × List Nat),
      (l.enumFrom i).foldl f s = l.foldl g s := by
    intro f g hfg l
    induction l with
    | nil => intro i s; rfl
    | cons a rest ih2 =>
      intro i s
      show List.foldl f (f s (i, a)) (rest.enumFrom (i + 1)) = List.foldl g (g s a) rest
      rw [hfg, ih2]
  intro positions remaining
  induction remaining generalizing positions with
  | zero => rfl
  | succ remaining ih =>
    show ((get_valid_extensions positions).enum.foldl
        (fun (st : Nat × List Nat) ie =>
          if hash_polycube (canonicalize (positions ++ [ie.2])) ∈ st.2 then st
          else if ¬ is_connected (canonicalize (positions ++ [ie.2])) then st
          else (st.1 + count_extensions_from (canonicalize (positions ++ [ie.2])) remaining,
            hash_polycube (canonicalize (positions ++ [ie.2])) :: st.2))
        (0, [])).1
      = ((get_valid_extensions positions).foldl
        (fun (st : Nat × List Nat) ext_pos =>
          if hash_polycube (canonicalize (positions ++ [ext_pos])) ∈ st.2 then st
          else if ¬ is_connected (canonicalize (positions ++ [ext_pos])) then st
          else (st.1 + count_extensions_without_dead_loop
              (canonicalize (positions ++ [ext_pos])) remaining,
            hash_polycube (canonicalize (positions ++ [ext_pos])) :: st.2))
        (0, [])).1
    refine congrArg Prod.fst (hgen _ _ ?_ (get_valid_extensions positions) 0 (0, []))
    intro s i a
    show (if hash_polycube (canonicalize (positions ++ [a])) ∈ s.2 then s
        else if ¬ is_connected (canonicalize (positions ++ [a])) then s
        else (s.1 + count_extensions_from (canonicalize (positions ++ [a])) remaining,
          hash_polycube (canonicalize (positions ++ [a])) :: s.2))
      = (if hash_polycube (canonicalize (positions ++ [a])) ∈ s.2 then s
        else if ¬ is_connected (canonicalize (positions ++ [a])) then s
        else (s.1 + count_extensions_without_dead_loop
            (canonicalize (positions ++ [a])) remaining,
          hash_polycube (canonicalize (positions ++ [a])) :: s.2))
    rw [ih (canonicalize (positions ++ [a]))]

/-- C10: at the out-of-contract size 0 the two symmetry modes disagree:
`count_polycubes 0 true` is 1 (via `count_free_polycubes`, which maps every
size of at most 2 to 1) while `count_polycubes 0 false` is 0
(`get_known_count 0` is `none` and `generate_polycubes 0 true` is empty);
`threads` ranges over all thread-pool sizes. -/
theorem claim_C10_size_zero_disagreement (threads : Nat) :
    count_polycubes threads 0 true = 1 ∧ count_polycubes threads 0 false = 0 ∧
    (∀ n, n ≤ 2 → count_free_polycubes n threads = 1) ∧
    get_known_count 0 = none ∧ generate_polycubes 0 true = [] := by
  refine ⟨rfl, rfl, ?_, rfl, rfl⟩
  intro n hn
  unfold count_free_polycubes
  rw [if_pos hn]

/-- Witness for C10's small-size clause at size 2. -/
theorem claim_C10_size_zero_disagreement_witness :
    count_free_polycubes 2 4 = 1 :=
  (claim_C10_size_zero_disagreement 4).2.2.1 2 (by decide)

/-! ### Claim C7: the parallel counter diverges from the breadth-first counter -/

set_option maxRecDepth 200000 in
set_option maxHeartbeats 8000000 in
/-- C7: evaluating both counters at the failing input 4 (a size the claim
covers, since it quantifies over every n of at least 3): the seed-partitioned
sum `count_fixed_polycubes_parallel` counts each shape once per distinct
canonical predecessor chain — its per-call `visited_hashes` deduplicates only
siblings — and returns 195 at size 4 where the breadth-first
`count_fixed_polycubes_improved` returns the fixed-polycube count 86. -/
theorem claim_C7_parallel_counter_diverges :
    count_fixed_polycubes_parallel 4 = 195 ∧ count_fixed_polycubes_improved 4 = 86 ∧
    count_fixed_polycubes_parallel 4 ≠ count_fixed_polycubes_improved 4 := by
  have h1 : count_fixed_polycubes_parallel 4 = 195 := by decide
  have h2 : count_fixed_polycubes_improved 4 = 86 := by decide
  refine ⟨h1, h2, ?_⟩
  rw [h1, h2]
  decide

end PolycubeSpec
